import Mathlib

/-!
# wraith `core/github.go`: repository enumeration

A shallow embedding of `DetermineRepositoryCount` (the bound finder) and
`GetAllRepositories` (the ranged scanner) of `core/github.go`, together with
the page-number listings `GetRepositoriesFromOwner`,
`GetRepositoriesFromOrganization` and `GetOrganizationMembers`.

Conventions of the embedding.

* A Go pointer field (`*string`, `*int64`, `*bool`, `*User`) is an `Option`;
  dereferencing `none` is a nil-pointer dereference, which aborts the call.
  It is modelled by the constructors named `nilDeref`.  The entries of a page
  themselves (`[]*github.Repository`) are taken to be non-nil.
* The remote client (`client.Repositories.ListAll`) belongs to the imported
  library `go-github`; it is a parameter of the model, a `Fetcher`: a function
  of the number of requests issued before and of the `Since` option.  The
  page-number requests are a `PageFetcher`, which also yields `resp.NextPage`.
* Go's `int` is taken to be 64 bits wide (as on amd64/arm64); `int64` and
  `int` values are integers in `[-2^63, 2^63)` and arithmetic wraps
  (`wrapInt64`).  Integer division truncates toward zero (`Int.tdiv`).
* The unbounded `for` loops take a fuel argument: `none` means that the loop
  is still running after `fuel` requests.
-/

namespace Wraith

/-- The error value handed back by the remote client. -/
abbrev Error := String

/-- The part of `github.User` read by the listings: `Login`, `ID` and `Type` (named
`Type_` here, `Type` being reserved). -/
structure User where
  Login : Option String
  ID : Option Int := none
  Type_ : Option String := none
deriving DecidableEq, Repr

/-- The part of `github.Repository` read by the source; every field is a pointer. -/
structure Repository where
  ID : Option Int
  Owner : Option User
  Name : Option String
  FullName : Option String
  Description : Option String
  Homepage : Option String
  DefaultBranch : Option String
  HTMLURL : Option String
  CloneURL : Option String
  SSHURL : Option String
  Fork : Option Bool
deriving DecidableEq, Repr

/-- Mirror of `type GithubRepository struct` (lines 22-32). -/
structure GithubRepository where
  Owner : Option String
  ID : Option Int
  Name : Option String
  FullName : Option String
  CloneURL : Option String
  URL : Option String
  DefaultBranch : Option String
  Description : Option String
  Homepage : Option String
deriving DecidableEq, Repr

/-- The remote listing `client.Repositories.ListAll(ctx, opt)`: given the number of
requests issued so far and `opt.Since`, a page of raw entries or an error. -/
abbrev Fetcher := Nat → Int → Except Error (List Repository)

/-- Two's-complement wrap of an integer into the 64-bit signed range. -/
def wrapInt64 (x : Int) : Int := (x + 2 ^ 63) % 2 ^ 64 - 2 ^ 63

/-! ## `GetAllRepositories` (lines 188-236) -/

/-- The literal of line 195. -/
def hard_coded_branch : String := "master"

/-- The struct literal of lines 207-217, given the dereferenced owner. -/
def allRecord (repo : Repository) (owner : User) : GithubRepository :=
  { Owner := owner.Login
    ID := repo.ID
    Name := repo.Name
    FullName := repo.FullName
    CloneURL := repo.CloneURL
    URL := repo.HTMLURL
    DefaultBranch := some hard_coded_branch
    Description := repo.Description
    Homepage := repo.Homepage }

/-- How one pass of `for _, repo := range repos` (lines 205-226) ends. -/
inductive PageScan where
  /-- the range loop ran to its end with these `allRepos` and `sinceValue` -/
  | next (allRepos : List GithubRepository) (sinceValue : Int)
  /-- the range loop was left by `return allRepos, nil` (line 223) -/
  | reached (allRepos : List GithubRepository)
  /-- a nil pointer was dereferenced (`*repo.Fork`, `repo.Owner.Login`, `*r.ID`) -/
  | nilDeref
deriving DecidableEq, Repr

/-- The range loop of lines 205-226 over the entries of one page. -/
def scanPage (end_ : Int) : List Repository → List GithubRepository → Int → PageScan
  | [], allRepos, sinceValue => .next allRepos sinceValue
  | repo :: rest, allRepos, sinceValue =>
    match repo.Fork with
    | none => .nilDeref
    | some true => scanPage end_ rest allRepos sinceValue
    | some false =>
      match repo.Owner with
      | none => .nilDeref
      | some owner =>
        match repo.ID with
        | none => .nilDeref
        | some id =>
          if id ≥ end_ then .reached (allRepos ++ [allRecord repo owner])
          else scanPage end_ rest (allRepos ++ [allRecord repo owner]) id

/-- The ways a call of `GetAllRepositories` ends. -/
inductive ScanResult where
  /-- exit by `return allRepos, err` (line 203) -/
  | fetchFailed (allRepos : List GithubRepository) (err : Error)
  /-- exit by `return allRepos, nil` (line 223): a qualifying identifier reached `end` -/
  | reachedEnd (allRepos : List GithubRepository)
  /-- exit by `return allRepos, nil` (line 235): the loop ended on an empty page -/
  | exhausted (allRepos : List GithubRepository)
  /-- the call died on a nil pointer dereference -/
  | nilDeref
deriving DecidableEq, Repr

/-- The `for scraped != true` loop of lines 200-233; `calls` counts the requests issued. -/
def scanLoop (ListAll : Fetcher) (end_ : Int) :
    Nat → Nat → List GithubRepository → Int → Option ScanResult
  | 0, _, _, _ => none
  | fuel + 1, calls, allRepos, sinceValue =>
    match ListAll calls sinceValue with
    | .error err => some (.fetchFailed allRepos err)
    | .ok repos =>
      match scanPage end_ repos allRepos sinceValue with
      | .nilDeref => some .nilDeref
      | .reached allRepos1 => some (.reachedEnd allRepos1)
      | .next allRepos1 sinceValue1 =>
        if repos.length = 0 then some (.exhausted allRepos1)
        else scanLoop ListAll end_ fuel (calls + 1) allRepos1 sinceValue1

/-- The call `GetAllRepositories(client, start, end)`, run for at most `fuel` requests. -/
def GetAllRepositories (ListAll : Fetcher) (start end_ : Int) (fuel : Nat) : Option ScanResult :=
  scanLoop ListAll end_ fuel 0 [] start

/-- The Go return values `(allRepos, err)` of a call that returned. -/
def ScanResult.returned : ScanResult → Option (List GithubRepository × Option Error)
  | .fetchFailed allRepos err => some (allRepos, some err)
  | .reachedEnd allRepos => some (allRepos, none)
  | .exhausted allRepos => some (allRepos, none)
  | .nilDeref => none

/-! ## `DetermineRepositoryCount` (lines 152-186) -/

/-- The range loop of lines 166-170: the value of `sinceValue` after the page,
or `none` on a nil pointer dereference (`*repo.Fork`, `*repo.ID`). -/
def countPage : List Repository → Int → Option Int
  | [], sinceValue => some sinceValue
  | repo :: rest, sinceValue =>
    match repo.Fork with
    | none => none
    | some true => countPage rest sinceValue
    | some false =>
      match repo.ID with
      | none => none
      | some id => countPage rest id

/-- The ways a call of `DetermineRepositoryCount` ends. -/
inductive CountResult where
  /-- exit by `return -1, err` (line 164) or `return int64(sinceValue), nil` (line 173) -/
  | ret (bound : Int) (err : Option Error)
  /-- the call died on a nil pointer dereference -/
  | nilDeref
deriving DecidableEq, Repr

/-- The `for` loop of lines 161-184 from the state `(lastValue, sinceValue)`;
`opt.Since` always equals `sinceValue` when the request is issued. -/
def countLoop (ListAll : Fetcher) : Nat → Nat → Int → Int → Option CountResult
  | 0, _, _, _ => none
  | fuel + 1, calls, lastValue, sinceValue =>
    match ListAll calls sinceValue with
    | .error err => some (.ret (-1) (some err))
    | .ok repos =>
      match countPage repos sinceValue with
      | none => some .nilDeref
      | some sinceValue1 =>
        if repos.length = 0 then
          if sinceValue1 = lastValue then some (.ret sinceValue1 none)
          else countLoop ListAll fuel (calls + 1) lastValue
            (Int.tdiv (wrapInt64 (lastValue + sinceValue1)) 2)
        else countLoop ListAll fuel (calls + 1) sinceValue1 (wrapInt64 (sinceValue1 * 2))

/-- The call `DetermineRepositoryCount(client)`, run for at most `fuel` requests. -/
def DetermineRepositoryCount (ListAll : Fetcher) (fuel : Nat) : Option CountResult :=
  countLoop ListAll fuel 0 0 0

/-! ## Simulated remote corpus -/

/-- Does the entry carry an identifier greater than `since`? -/
def idAbove (since : Int) (r : Repository) : Bool :=
  match r.ID with
  | some i => decide (since < i)
  | none => false

/-- The entries of the corpus a request "since `since`" may list, in corpus order. -/
def after (corpus : List Repository) (since : Int) : List Repository :=
  corpus.filter (idAbove since)

/-- The identifiers carried by a list of raw entries. -/
def ids (rs : List Repository) : List Int := rs.filterMap (fun r => r.ID)

/-- A never-failing fetcher with a fixed page size over a corpus. -/
def pagedFetcher (corpus : List Repository) (perPage : Nat) : Fetcher :=
  fun _ since => .ok ((after corpus since).take perPage)

/-- A raw entry that is not a fork, with identifier `i` and an owner. -/
def source (i : Int) : Repository :=
  { ID := some i, Owner := some { Login := none }, Name := none, FullName := none,
    Description := none, Homepage := none, DefaultBranch := none, HTMLURL := none,
    CloneURL := none, SSHURL := none, Fork := some false }

/-- A raw entry that is a fork, with identifier `i` and an owner. -/
def forked (i : Int) : Repository :=
  { source i with Fork := some true }

/-! ## Per-entry passes of the per-owner listings (lines 68-83 and 106-121) -/

/-- The struct literal of lines 70-80 (`GetRepositoriesFromOwner`). -/
def ownerRecord (repo : Repository) (owner : User) : GithubRepository :=
  { Owner := owner.Login
    ID := repo.ID
    Name := repo.Name
    FullName := repo.FullName
    CloneURL := repo.CloneURL
    URL := repo.HTMLURL
    DefaultBranch := repo.DefaultBranch
    Description := repo.Description
    Homepage := repo.Homepage }

/-- The struct literal of lines 108-118 (`GetRepositoriesFromOrganization`). -/
def orgRecord (repo : Repository) (owner : User) : GithubRepository :=
  { Owner := owner.Login
    ID := repo.ID
    Name := repo.Name
    FullName := repo.FullName
    CloneURL := repo.SSHURL
    URL := repo.HTMLURL
    DefaultBranch := repo.DefaultBranch
    Description := repo.Description
    Homepage := repo.Homepage }

/-- The range loop of lines 68-83; `includeForks` is the pointer argument of the call.
`none` is a nil pointer dereference (`*includeForks`, `*repo.Fork`, `repo.Owner.Login`). -/
def ownerPage (includeForks : Option Bool) :
    List Repository → List GithubRepository → Option (List GithubRepository)
  | [], allRepos => some allRepos
  | repo :: rest, allRepos =>
    match includeForks with
    | none => none
    | some inc =>
      match repo.Fork with
      | none => none
      | some fork =>
        if (inc && fork) || !fork then
          match repo.Owner with
          | none => none
          | some owner => ownerPage includeForks rest (allRepos ++ [ownerRecord repo owner])
        else ownerPage includeForks rest allRepos

/-- The range loop of lines 106-121. -/
def orgPage : List Repository → List GithubRepository → Option (List GithubRepository)
  | [], allRepos => some allRepos
  | repo :: rest, allRepos =>
    match repo.Fork with
    | none => none
    | some true => orgPage rest allRepos
    | some false =>
      match repo.Owner with
      | none => none
      | some owner => orgPage rest (allRepos ++ [orgRecord repo owner])

/-- The pointers `GetAllRepositories` dereferences on an entry are all set. -/
def scanDerefsOk (repo : Repository) : Bool :=
  match repo.Fork with
  | none => false
  | some true => true
  | some false => repo.Owner.isSome && repo.ID.isSome

/-- The pointers `DetermineRepositoryCount` dereferences on an entry are all set. -/
def countDerefsOk (repo : Repository) : Bool :=
  match repo.Fork with
  | none => false
  | some true => true
  | some false => repo.ID.isSome

/-- The pointers `GetRepositoriesFromOwner` dereferences on an entry are all set. -/
def ownerDerefsOk (inc : Bool) (repo : Repository) : Bool :=
  match repo.Fork with
  | none => false
  | some fork => if (inc && fork) || !fork then repo.Owner.isSome else true

/-- The pointers `GetRepositoriesFromOrganization` dereferences on an entry are all set. -/
def orgDerefsOk (repo : Repository) : Bool :=
  match repo.Fork with
  | none => false
  | some true => true
  | some false => repo.Owner.isSome

/-! ## Reference functions used to state the results -/

/-- Is the entry marked as not being a fork? -/
def isSource (r : Repository) : Bool := r.Fork == some false

/-- The record `GetAllRepositories` builds from a raw entry (none without owner). -/
def recordOf (r : Repository) : Option GithubRepository := r.Owner.map (allRecord r)

/-- The records of the non-fork entries of a list of raw entries, in order. -/
def recordsOf (rs : List Repository) : List GithubRepository :=
  (rs.filter isSource).filterMap recordOf

/-- The identifier of the last non-fork entry of `rs`, or `since` when there is none. -/
def cursorAfter (since : Int) (rs : List Repository) : Int :=
  rs.foldl (fun c r => if isSource r then r.ID.getD c else c) since

/-- Identifiers of a list of records. -/
def recordIds (rs : List GithubRepository) : List Int := rs.filterMap (fun r => r.ID)

/-- The corpus lists entries that all carry an identifier, in strictly ascending order. -/
def Ascending (corpus : List Repository) : Prop :=
  (∀ r ∈ corpus, r.ID.isSome = true) ∧ (ids corpus).Pairwise (· < ·)

/-- The fetcher serves the corpus: a request that succeeds answers "since X" with the
first `k` entries of the corpus above `X`, for some page size `k ≥ 1`. -/
def Serves (corpus : List Repository) (ListAll : Fetcher) : Prop :=
  ∀ calls since page, ListAll calls since = .ok page →
    ∃ k, 1 ≤ k ∧ page = (after corpus since).take k

/-- A faithful never-failing fetcher over the corpus: every request "since X" succeeds
with the first `k` entries of the corpus above `X`, for some page size `k ≥ 1`. -/
def Faithful (corpus : List Repository) (ListAll : Fetcher) : Prop :=
  ∀ calls since, ∃ k, 1 ≤ k ∧ ListAll calls since = .ok ((after corpus since).take k)

/-- Every entry of the corpus is a non-fork entry with an owner and an identifier. -/
def AllSources (corpus : List Repository) : Prop :=
  ∀ r ∈ corpus, r.Fork = some false ∧ r.Owner.isSome = true ∧ r.ID.isSome = true

/-- The entry's identifier is at least `end_`. -/
def reachesEnd (end_ : Int) (r : Repository) : Bool :=
  match r.ID with
  | some i => decide (end_ ≤ i)
  | none => false

/-- The entries up to and including the first one whose identifier is at least `end_`
(all of them when there is none). -/
def throughEnd (end_ : Int) : List Repository → List Repository
  | [] => []
  | r :: rest => if reachesEnd end_ r then [r] else r :: throughEnd end_ rest

/-- The entry's identifier lies in the range `(start, end_]`. -/
def inRange (start end_ : Int) (r : Repository) : Bool :=
  match r.ID with
  | some i => decide (start < i) && decide (i ≤ end_)
  | none => false

/-- The greatest identifier carried by the entries, 0 when there is none (identifiers
are taken to be positive). -/
def greatestId (rs : List Repository) : Int := (ids rs).foldl max 0

/-- Every page lists only identifiers greater than the cursor it was requested with. -/
def ListsAbove (ListAll : Fetcher) : Prop :=
  ∀ calls since page, ListAll calls since = .ok page → ∀ i ∈ ids page, since < i

/-- Every page lists its entries in ascending order of identifier, all of them greater
than the cursor it was requested with. -/
def ListsAscending (ListAll : Fetcher) : Prop :=
  ∀ calls since page, ListAll calls since = .ok page →
    (ids page).Pairwise (· < ·) ∧ ∀ i ∈ ids page, since < i

/-- A fetcher that serves `corpus` in pages of `perPage` entries for its first `good`
requests and fails with `err` afterwards. -/
def failingAfter (good : Nat) (err : Error) (corpus : List Repository) (perPage : Nat) :
    Fetcher :=
  fun calls since => if calls < good then pagedFetcher corpus perPage calls since else .error err

/-! ## The page-number listings (lines 55-150) -/

/-- Mirror of `type GithubOwner struct` (lines 8-20). -/
structure GithubOwner where
  Login : Option String
  ID : Option Int
  Type_ : Option String
  Name : Option String
  AvatarURL : Option String
  URL : Option String
  Company : Option String
  Blog : Option String
  Location : Option String
  Email : Option String
  Bio : Option String
deriving DecidableEq, Repr

/-- A page-number listing of the remote client (`client.Repositories.List`,
`client.Repositories.ListByOrg`, `client.Organizations.ListMembers`): given the number
of requests issued so far, the login and `opt.Page`, a page of raw entries together
with `resp.NextPage`, or an error. -/
abbrev PageFetcher (α : Type) := Nat → String → Int → Except Error (List α × Int)

/-- The ways a call of a page-number listing ends. -/
inductive ListResult (β : Type) where
  /-- exit by `return all, err` (lines 66, 104, 139) -/
  | failed (all : List β) (err : Error)
  /-- exit by `return all, nil` after the `break` (lines 90, 128, 149) -/
  | done (all : List β)
  /-- the call died on a nil pointer dereference -/
  | nilDeref
deriving DecidableEq, Repr

/-- The Go return values `(all, err)` of a listing that returned. -/
def ListResult.returned {β : Type} : ListResult β → Option (List β × Option Error)
  | .failed all err => some (all, some err)
  | .done all => some (all, none)
  | .nilDeref => none

/-- The `for` loop shared by the three page-number listings (lines 63-88, 101-126 and
136-148): request the page `opt.Page`, run the range loop `pass` over its entries,
stop when `resp.NextPage == 0`, else go on with `opt.Page = resp.NextPage`. -/
def pageNumberLoop {α β : Type} (pass : List α → List β → Option (List β))
    (list : Nat → Int → Except Error (List α × Int)) :
    Nat → Nat → Int → List β → Option (ListResult β)
  | 0, _, _, _ => none
  | fuel + 1, calls, page, all =>
    match list calls page with
    | .error err => some (.failed all err)
    | .ok (entries, nextPage) =>
      match pass entries all with
      | none => some .nilDeref
      | some all1 =>
        if nextPage = 0 then some (.done all1)
        else pageNumberLoop pass list fuel (calls + 1) nextPage all1

/-- The call `GetRepositoriesFromOwner(login, client, includeForks)`, run for at most
`fuel` requests; `*login` is dereferenced before the first request. -/
def GetRepositoriesFromOwner (login : Option String) (list : PageFetcher Repository)
    (includeForks : Option Bool) (fuel : Nat) : Option (ListResult GithubRepository) :=
  match login with
  | none => some .nilDeref
  | some loginVal => pageNumberLoop (ownerPage includeForks) (list · loginVal) fuel 0 0 []

/-- The call `GetRepositoriesFromOrganization(login, client)`, run for at most `fuel`
requests. -/
def GetRepositoriesFromOrganization (login : Option String) (list : PageFetcher Repository)
    (fuel : Nat) : Option (ListResult GithubRepository) :=
  match login with
  | none => some .nilDeref
  | some loginVal => pageNumberLoop orgPage (list · loginVal) fuel 0 0 []

/-- The struct literal of line 142: three fields are set, the others stay nil. -/
def memberRecord (member : User) : GithubOwner :=
  { Login := member.Login, ID := member.ID, Type_ := member.Type_, Name := none,
    AvatarURL := none, URL := none, Company := none, Blog := none, Location := none,
    Email := none, Bio := none }

/-- The range loop of lines 141-143; it dereferences no optional pointer. -/
def memberPage : List User → List GithubOwner → Option (List GithubOwner)
  | [], allMembers => some allMembers
  | member :: rest, allMembers => memberPage rest (allMembers ++ [memberRecord member])

/-- The call `GetOrganizationMembers(login, client)`, run for at most `fuel` requests. -/
def GetOrganizationMembers (login : Option String) (list : PageFetcher User)
    (fuel : Nat) : Option (ListResult GithubOwner) :=
  match login with
  | none => some .nilDeref
  | some loginVal => pageNumberLoop memberPage (list · loginVal) fuel 0 0 []

/-- Does `GetRepositoriesFromOwner` build a record from the entry (line 69)? -/
def ownerKeeps (inc : Bool) (r : Repository) : Bool :=
  match r.Fork with
  | some fork => (inc && fork) || !fork
  | none => false

/-- The records `GetRepositoriesFromOwner` builds from a page, in order. -/
def ownerRecords (inc : Bool) (page : List Repository) : List GithubRepository :=
  (page.filter (ownerKeeps inc)).filterMap (fun r => r.Owner.map (ownerRecord r))

/-- The records `GetRepositoriesFromOrganization` builds from a page, in order. -/
def orgRecords (page : List Repository) : List GithubRepository :=
  (page.filter isSource).filterMap (fun r => r.Owner.map (orgRecord r))

/-- The value of `opt.Page` for request number `k` when the earlier requests were
answered by `pages`: `first` for the first request (0 in the source), then the
`NextPage` of the previous answer. -/
def pageArg {α : Type} (first : Int) (pages : List (List α × Int)) : Nat → Int
  | 0 => first
  | k + 1 => (pages[k]?.map (fun p => p.2)).getD 0

/-- A never-failing page-number listing that answers request `k` with `pages[k]`. -/
def servePages {α : Type} (pages : List (List α × Int)) : PageFetcher α :=
  fun calls _ _ => .ok (pages[calls]?.getD ([], 0))

/-! ## Single steps of the bound finder -/

/-- How one pass of the body of the `for` loop of lines 161-184 ends. -/
inductive CountStep where
  /-- the call returned -/
  | done (res : CountResult)
  /-- the loop goes on with these values of `lastValue` and `sinceValue` -/
  | next (lastValue sinceValue : Int)
deriving DecidableEq, Repr

/-- One pass of the body of the `for` loop of lines 161-184. -/
def countStep (ListAll : Fetcher) (calls : Nat) (lastValue sinceValue : Int) : CountStep :=
  match ListAll calls sinceValue with
  | .error err => .done (.ret (-1) (some err))
  | .ok repos =>
    match countPage repos sinceValue with
    | none => .done .nilDeref
    | some sinceValue1 =>
      if repos.length = 0 then
        if sinceValue1 = lastValue then .done (.ret sinceValue1 none)
        else .next lastValue (Int.tdiv (wrapInt64 (lastValue + sinceValue1)) 2)
      else .next sinceValue1 (wrapInt64 (sinceValue1 * 2))

/-- The pair `(lastValue, sinceValue)` with which request number `k` of
`DetermineRepositoryCount` is issued, when the call gets that far. -/
def countState (ListAll : Fetcher) : Nat → Option (Int × Int)
  | 0 => some (0, 0)
  | k + 1 =>
    match countState ListAll k with
    | none => none
    | some (lastValue, sinceValue) =>
      match countStep ListAll k lastValue sinceValue with
      | .done _ => none
      | .next lastValue1 sinceValue1 => some (lastValue1, sinceValue1)

/-- A fetcher that serves `corpus` in pages of `perPage` entries and fails with `err`
for the cursor `bad` only. -/
def failingAt (bad : Int) (err : Error) (corpus : List Repository) (perPage : Nat) : Fetcher :=
  fun calls since => if since = bad then .error err else pagedFetcher corpus perPage calls since

/-! ## Nil dereferences -/

theorem scanPage_ne_nilDeref (end_ : Int) (page : List Repository) :
    ∀ (allRepos : List GithubRepository) (sinceValue : Int),
      (∀ e ∈ page, scanDerefsOk e = true) → scanPage end_ page allRepos sinceValue ≠ .nilDeref := by
  induction page with
  | nil => intro allRepos sinceValue _; simp [scanPage]
  | cons repo rest ih =>
    intro allRepos sinceValue h
    have hr := h repo (List.mem_cons_self _ _)
    have hrest : ∀ e ∈ rest, scanDerefsOk e = true := fun e he => h e (List.mem_cons_of_mem _ he)
    unfold scanDerefsOk at hr
    unfold scanPage
    cases hf : repo.Fork with
    | none => simp [hf] at hr
    | some f =>
      cases f with
      | true => simpa using ih allRepos sinceValue hrest
      | false =>
        simp only [hf, Bool.and_eq_true] at hr
        cases ho : repo.Owner with
        | none => simp [ho] at hr
        | some owner =>
          cases hi : repo.ID with
          | none => simp [hi] at hr
          | some id =>
            simp only
            split
            · simp
            · exact ih _ _ hrest

theorem countPage_isSome (page : List Repository) :
    ∀ (sinceValue : Int), (∀ e ∈ page, countDerefsOk e = true) →
      (countPage page sinceValue).isSome = true := by
  induction page with
  | nil => intro sinceValue _; simp [countPage]
  | cons repo rest ih =>
    intro sinceValue h
    have hr := h repo (List.mem_cons_self _ _)
    have hrest : ∀ e ∈ rest, countDerefsOk e = true := fun e he => h e (List.mem_cons_of_mem _ he)
    unfold countDerefsOk at hr
    unfold countPage
    cases hf : repo.Fork with
    | none => simp [hf] at hr
    | some f =>
      cases f with
      | true => simpa using ih sinceValue hrest
      | false =>
        simp only [hf] at hr
        cases hi : repo.ID with
        | none => simp [hi] at hr
        | some id => simpa using ih id hrest

theorem ownerPage_isSome (inc : Bool) (page : List Repository) :
    ∀ (allRepos : List GithubRepository), (∀ e ∈ page, ownerDerefsOk inc e = true) →
      (ownerPage (some inc) page allRepos).isSome = true := by
  induction page with
  | nil => intro allRepos _; simp [ownerPage]
  | cons repo rest ih =>
    intro allRepos h
    have hr := h repo (List.mem_cons_self _ _)
    have hrest : ∀ e ∈ rest, ownerDerefsOk inc e = true :=
      fun e he => h e (List.mem_cons_of_mem _ he)
    unfold ownerDerefsOk at hr
    unfold ownerPage
    cases hf : repo.Fork with
    | none => simp [hf] at hr
    | some f =>
      simp only [hf] at hr
      simp only
      by_cases hc : ((inc && f) || !f) = true
      · rw [if_pos hc] at hr ⊢
        cases ho : repo.Owner with
        | none => simp [ho] at hr
        | some owner => exact ih _ hrest
      · rw [if_neg hc]
        exact ih _ hrest

theorem orgPage_isSome (page : List Repository) :
    ∀ (allRepos : List GithubRepository), (∀ e ∈ page, orgDerefsOk e = true) →
      (orgPage page allRepos).isSome = true := by
  induction page with
  | nil => intro allRepos _; simp [orgPage]
  | cons repo rest ih =>
    intro allRepos h
    have hr := h repo (List.mem_cons_self _ _)
    have hrest : ∀ e ∈ rest, orgDerefsOk e = true := fun e he => h e (List.mem_cons_of_mem _ he)
    unfold orgDerefsOk at hr
    unfold orgPage
    cases hf : repo.Fork with
    | none => simp [hf] at hr
    | some f =>
      cases f with
      | true => simpa using ih allRepos hrest
      | false =>
        simp only [hf] at hr
        cases ho : repo.Owner with
        | none => simp [ho] at hr
        | some owner => simpa using ih _ hrest

/-- C10 (as stated) fails: on a page whose only entry has no fork flag,
`GetAllRepositories`, `DetermineRepositoryCount` and the owner listing die on a nil
pointer dereference; so do `GetAllRepositories` and the organization listing on a
source entry without owner, and `GetAllRepositories` on one without identifier.  No
record is produced. -/
theorem projection_nil_deref_counterexample :
    GetAllRepositories (fun _ _ => .ok [{ source 5 with Fork := none }]) 0 10 1
        = some .nilDeref
      ∧ GetAllRepositories (fun _ _ => .ok [{ source 5 with Owner := none }]) 0 10 1
        = some .nilDeref
      ∧ GetAllRepositories (fun _ _ => .ok [{ source 5 with ID := none }]) 0 10 1
        = some .nilDeref
      ∧ DetermineRepositoryCount (fun _ _ => .ok [{ source 5 with Fork := none }]) 1
        = some .nilDeref
      ∧ ownerPage (some false) [{ source 5 with Fork := none }] [] = none
      ∧ orgPage [{ source 5 with Owner := none }] [] = none := by
  decide

/-! ## Fork entries and provenance of the records -/

theorem scanPage_fork (end_ : Int) (repo : Repository) (rest : List Repository)
    (allRepos : List GithubRepository) (sinceValue : Int) (h : repo.Fork = some true) :
    scanPage end_ (repo :: rest) allRepos sinceValue = scanPage end_ rest allRepos sinceValue := by
  rw [scanPage]; simp [h]

theorem scanPage_all (end_ : Int) (Q : GithubRepository → Prop) (page : List Repository) :
    ∀ (allRepos : List GithubRepository) (sinceValue : Int),
      (∀ r ∈ allRepos, Q r) →
      (∀ e ∈ page, ∀ owner, e.Fork = some false → e.Owner = some owner → Q (allRecord e owner)) →
      (∀ a s, scanPage end_ page allRepos sinceValue = .next a s → ∀ r ∈ a, Q r)
        ∧ (∀ a, scanPage end_ page allRepos sinceValue = .reached a → ∀ r ∈ a, Q r) := by
  induction page with
  | nil =>
    intro allRepos sinceValue hacc _
    simp only [scanPage]
    refine ⟨?_, ?_⟩
    · intro a s h; cases h; exact hacc
    · intro a h; cases h
  | cons repo rest ih =>
    intro allRepos sinceValue hacc hpage
    have hrest : ∀ e ∈ rest, ∀ owner, e.Fork = some false → e.Owner = some owner →
        Q (allRecord e owner) := fun e he => hpage e (List.mem_cons_of_mem _ he)
    unfold scanPage
    cases hf : repo.Fork with
    | none => simp
    | some f =>
      cases f with
      | true => simpa using ih allRepos sinceValue hacc hrest
      | false =>
        cases ho : repo.Owner with
        | none => simp
        | some owner =>
          cases hi : repo.ID with
          | none => simp
          | some id =>
            have hacc1 : ∀ r ∈ allRepos ++ [allRecord repo owner], Q r := by
              intro r hr
              rcases List.mem_append.1 hr with h | h
              · exact hacc r h
              · rw [List.mem_singleton.1 h]
                exact hpage repo (List.mem_cons_self _ _) owner hf ho
            simp only
            split
            · refine ⟨?_, ?_⟩
              · intro a s h; cases h
              · intro a h; cases h; exact hacc1
            · exact ih _ _ hacc1 hrest

theorem scanLoop_all (ListAll : Fetcher) (end_ : Int) (Q : GithubRepository → Prop)
    (hQ : ∀ calls since page, ListAll calls since = .ok page → ∀ e ∈ page, ∀ owner,
      e.Fork = some false → e.Owner = some owner → Q (allRecord e owner)) (fuel : Nat) :
    ∀ (calls : Nat) (allRepos : List GithubRepository) (sinceValue : Int) (res : ScanResult)
      (out : List GithubRepository) (err : Option Error),
      (∀ r ∈ allRepos, Q r) →
      scanLoop ListAll end_ fuel calls allRepos sinceValue = some res →
      res.returned = some (out, err) → ∀ r ∈ out, Q r := by
  induction fuel with
  | zero => intro calls allRepos sinceValue res out err _ h; simp [scanLoop] at h
  | succ fuel ih =>
    intro calls allRepos sinceValue res out err hacc h hret
    rw [scanLoop] at h
    cases hfetch : ListAll calls sinceValue with
    | error e =>
      simp only [hfetch, Option.some.injEq] at h
      subst h
      simp only [ScanResult.returned, Option.some.injEq, Prod.mk.injEq] at hret
      rw [← hret.1]; exact hacc
    | ok repos =>
      have hp := scanPage_all end_ Q repos allRepos sinceValue hacc (hQ calls sinceValue repos hfetch)
      simp only [hfetch] at h
      cases hs : scanPage end_ repos allRepos sinceValue with
      | nilDeref =>
        simp only [hs, Option.some.injEq] at h
        subst h
        simp [ScanResult.returned] at hret
      | reached a =>
        simp only [hs, Option.some.injEq] at h
        subst h
        simp only [ScanResult.returned, Option.some.injEq, Prod.mk.injEq] at hret
        rw [← hret.1]; exact hp.2 a hs
      | next a s =>
        simp only [hs] at h
        by_cases hl : repos.length = 0
        · rw [if_pos hl] at h
          simp only [Option.some.injEq] at h
          subst h
          simp only [ScanResult.returned, Option.some.injEq, Prod.mk.injEq] at hret
          rw [← hret.1]; exact hp.1 a s hs
        · rw [if_neg hl] at h
          exact ih _ _ _ res out err (hp.1 a s hs) h hret

/-- C7: every record returned by `GetAllRepositories` (also next to an error) is built
from a fetched entry that is marked as not being a fork, and an entry marked as a fork
is stepped over: the pass over the rest of the page goes on with the same result
sequence and the same cursor, whatever the fork's identifier, so it cannot trigger the
boundary stop. -/
theorem forks_never_materialized (ListAll : Fetcher) (start end_ : Int) :
    (∀ (fuel : Nat) (res : ScanResult) (out : List GithubRepository) (err : Option Error),
        GetAllRepositories ListAll start end_ fuel = some res →
        res.returned = some (out, err) →
        ∀ r ∈ out, ∃ calls since page entry owner,
          ListAll calls since = .ok page ∧ entry ∈ page ∧ entry.Fork = some false
            ∧ entry.Owner = some owner ∧ r = allRecord entry owner)
      ∧ ∀ (fork : Repository) (rest : List Repository) (allRepos : List GithubRepository)
          (sinceValue : Int), fork.Fork = some true →
          scanPage end_ (fork :: rest) allRepos sinceValue
            = scanPage end_ rest allRepos sinceValue := by
  refine ⟨?_, fun fork rest allRepos sinceValue h => scanPage_fork end_ fork rest allRepos sinceValue h⟩
  intro fuel res out err hrun hret
  refine scanLoop_all ListAll end_ _ ?_ fuel 0 [] start res out err (by simp) hrun hret
  intro calls since page hfetch e he owner hf ho
  exact ⟨calls, since, page, e, owner, hfetch, he, hf, ho, rfl⟩

/-- Witness of C7: with `end = 10`, the fork 12 in front of the source 5 is stepped
over although 12 ≥ 10, and the one record returned for the corpus (5, fork 12) comes
from the source entry. -/
theorem forks_never_materialized_witness :
    (∀ r ∈ [allRecord (source 5) { Login := none }], ∃ calls since page entry owner,
        pagedFetcher [source 5, forked 12] 2 calls since = .ok page ∧ entry ∈ page
          ∧ entry.Fork = some false ∧ entry.Owner = some owner ∧ r = allRecord entry owner)
      ∧ scanPage 10 (forked 12 :: [source 5]) [] 0 = scanPage 10 [source 5] [] 0 :=
  ⟨(forks_never_materialized (pagedFetcher [source 5, forked 12] 2) 0 5).1 1
      (.reachedEnd [allRecord (source 5) { Login := none }]) _ none (by decide) rfl,
    (forks_never_materialized (pagedFetcher [source 5, forked 12] 2) 0 10).2
      (forked 12) [source 5] [] 0 rfl⟩

/-! ## Fetch errors -/

theorem countLoop_error_bound (ListAll : Fetcher) (fuel : Nat) :
    ∀ (calls : Nat) (lastValue sinceValue bound : Int) (err : Error),
      countLoop ListAll fuel calls lastValue sinceValue = some (.ret bound (some err)) →
      bound = -1 ∧ ∃ c s, ListAll c s = .error err := by
  induction fuel with
  | zero => intro calls lastValue sinceValue bound err h; simp [countLoop] at h
  | succ fuel ih =>
    intro calls lastValue sinceValue bound err h
    rw [countLoop] at h
    cases hfetch : ListAll calls sinceValue with
    | error e =>
      simp only [hfetch, Option.some.injEq, CountResult.ret.injEq] at h
      refine ⟨h.1.symm, calls, sinceValue, ?_⟩
      rw [hfetch, h.2]
    | ok repos =>
      simp only [hfetch] at h
      cases hc : countPage repos sinceValue with
      | none => simp [hc] at h
      | some s =>
        simp only [hc] at h
        by_cases hl : repos.length = 0
        · rw [if_pos hl] at h
          by_cases hs : s = lastValue
          · rw [if_pos hs] at h; simp at h
          · rw [if_neg hs] at h; exact ih _ _ _ _ _ h
        · rw [if_neg hl] at h; exact ih _ _ _ _ _ h

theorem countLoop_fails_at (ListAll : Fetcher) (err : Error) (k : Nat) :
    ∀ (calls : Nat) (lastValue sinceValue : Int),
      countLoop ListAll k calls lastValue sinceValue = none →
      (∀ since, ListAll (calls + k) since = .error err) →
      ∀ fuel, k < fuel →
        countLoop ListAll fuel calls lastValue sinceValue = some (.ret (-1) (some err)) := by
  induction k with
  | zero =>
    intro calls lastValue sinceValue _ hfail fuel hfuel
    obtain ⟨f, rfl⟩ : ∃ f, fuel = f + 1 := ⟨fuel - 1, by omega⟩
    have h0 : ListAll calls sinceValue = .error err := by simpa using hfail sinceValue
    rw [countLoop, h0]
  | succ k ih =>
    intro calls lastValue sinceValue hrun hfail fuel hfuel
    obtain ⟨f, rfl⟩ : ∃ f, fuel = f + 1 := ⟨fuel - 1, by omega⟩
    have hf : k < f := by omega
    have hfail1 : ∀ since, ListAll (calls + 1 + k) since = .error err := by
      intro since; rw [show calls + 1 + k = calls + (k + 1) by omega]; exact hfail since
    rw [countLoop] at hrun ⊢
    cases hfetch : ListAll calls sinceValue with
    | error e => simp [hfetch] at hrun
    | ok repos =>
      simp only [hfetch] at hrun ⊢
      cases hc : countPage repos sinceValue with
      | none => simp [hc] at hrun
      | some s =>
        simp only [hc] at hrun ⊢
        by_cases hl : repos.length = 0
        · rw [if_pos hl] at hrun ⊢
          by_cases hs : s = lastValue
          · rw [if_pos hs] at hrun; simp at hrun
          · rw [if_neg hs] at hrun ⊢; exact ih _ _ _ hrun hfail1 f hf
        · rw [if_neg hl] at hrun ⊢; exact ih _ _ _ hrun hfail1 f hf

/-! ## A page that stays below the boundary -/

theorem recordsOf_cons_fork (repo : Repository) (rest : List Repository)
    (h : repo.Fork = some true) : recordsOf (repo :: rest) = recordsOf rest := by
  simp [recordsOf, isSource, h]

theorem recordsOf_cons_source (repo : Repository) (owner : User) (rest : List Repository)
    (h : repo.Fork = some false) (ho : repo.Owner = some owner) :
    recordsOf (repo :: rest) = allRecord repo owner :: recordsOf rest := by
  simp [recordsOf, isSource, h, recordOf, ho]

theorem recordsOf_append (a b : List Repository) :
    recordsOf (a ++ b) = recordsOf a ++ recordsOf b := by
  simp [recordsOf]

theorem cursorAfter_append (since : Int) (a b : List Repository) :
    cursorAfter since (a ++ b) = cursorAfter (cursorAfter since a) b := by
  simp [cursorAfter]

theorem cursorAfter_cons_fork (since : Int) (repo : Repository) (rest : List Repository)
    (h : repo.Fork = some true) : cursorAfter since (repo :: rest) = cursorAfter since rest := by
  simp [cursorAfter, isSource, h]

theorem cursorAfter_cons_source (since i : Int) (repo : Repository) (rest : List Repository)
    (h : repo.Fork = some false) (hi : repo.ID = some i) :
    cursorAfter since (repo :: rest) = cursorAfter i rest := by
  simp [cursorAfter, isSource, h, hi]

theorem scanPage_below (end_ : Int) (page : List Repository) :
    ∀ (allRepos : List GithubRepository) (sinceValue : Int),
      (∀ e ∈ page, scanDerefsOk e = true) →
      (∀ e ∈ page, e.Fork = some false → ∀ i, e.ID = some i → i < end_) →
      scanPage end_ page allRepos sinceValue
        = .next (allRepos ++ recordsOf page) (cursorAfter sinceValue page) := by
  induction page with
  | nil => intro allRepos sinceValue _ _; simp [scanPage, recordsOf, cursorAfter]
  | cons repo rest ih =>
    intro allRepos sinceValue hok hlt
    have hr := hok repo (List.mem_cons_self _ _)
    have hokr : ∀ e ∈ rest, scanDerefsOk e = true := fun e he => hok e (List.mem_cons_of_mem _ he)
    have hltr : ∀ e ∈ rest, e.Fork = some false → ∀ i, e.ID = some i → i < end_ :=
      fun e he => hlt e (List.mem_cons_of_mem _ he)
    unfold scanDerefsOk at hr
    cases hf : repo.Fork with
    | none => simp [hf] at hr
    | some f =>
      cases f with
      | true =>
        rw [scanPage_fork _ _ _ _ _ hf, recordsOf_cons_fork _ _ hf,
          cursorAfter_cons_fork _ _ _ hf]
        exact ih _ _ hokr hltr
      | false =>
        simp only [hf, Bool.and_eq_true] at hr
        cases ho : repo.Owner with
        | none => simp [ho] at hr
        | some owner =>
          cases hi : repo.ID with
          | none => simp [hi] at hr
          | some id =>
            have hid : ¬ id ≥ end_ := not_le.2 (hlt repo (List.mem_cons_self _ _) hf id hi)
            rw [scanPage]
            simp only [hf, ho, hi, if_neg hid]
            rw [ih _ _ hokr hltr, recordsOf_cons_source _ _ _ hf ho,
              cursorAfter_cons_source _ _ _ _ hf hi]
            simp

theorem scanLoop_fails_after (ListAll : Fetcher) (end_ : Int) (err : Error)
    (pages : List (List Repository)) :
    ∀ (calls : Nat) (allRepos : List GithubRepository) (sinceValue : Int),
      (∀ p ∈ pages, p ≠ []) →
      (∀ p ∈ pages, ∀ e ∈ p, scanDerefsOk e = true) →
      (∀ p ∈ pages, ∀ e ∈ p, e.Fork = some false → ∀ i, e.ID = some i → i < end_) →
      (∀ k p, pages[k]? = some p →
        ListAll (calls + k) (cursorAfter sinceValue (pages.take k).flatten) = .ok p) →
      ListAll (calls + pages.length) (cursorAfter sinceValue pages.flatten) = .error err →
      ∀ fuel, pages.length < fuel →
        scanLoop ListAll end_ fuel calls allRepos sinceValue
          = some (.fetchFailed (allRepos ++ recordsOf pages.flatten) err) := by
  induction pages with
  | nil =>
    intro calls allRepos sinceValue _ _ _ _ hfail fuel hfuel
    obtain ⟨f, rfl⟩ : ∃ f, fuel = f + 1 := ⟨fuel - 1, by simp at hfuel; omega⟩
    have h0 : ListAll calls sinceValue = .error err := by simpa [cursorAfter] using hfail
    rw [scanLoop, h0]
    simp [recordsOf]
  | cons p ps ih =>
    intro calls allRepos sinceValue hne hok hlt hfetch hfail fuel hfuel
    obtain ⟨f, rfl⟩ : ∃ f, fuel = f + 1 := ⟨fuel - 1, by simp at hfuel; omega⟩
    have hf : ps.length < f := by simp at hfuel; omega
    have h0 : ListAll calls sinceValue = .ok p := by
      simpa [cursorAfter] using hfetch 0 p (by simp)
    have hp : p.length ≠ 0 := by
      have := hne p (List.mem_cons_self _ _)
      simpa [List.length_eq_zero] using this
    rw [scanLoop, h0]
    simp only
    rw [scanPage_below end_ p allRepos sinceValue (hok p (List.mem_cons_self _ _))
      (hlt p (List.mem_cons_self _ _))]
    simp only [if_neg hp]
    rw [ih (calls + 1) _ _ (fun q hq => hne q (List.mem_cons_of_mem _ hq))
      (fun q hq => hok q (List.mem_cons_of_mem _ hq))
      (fun q hq => hlt q (List.mem_cons_of_mem _ hq)) ?_ ?_ f hf]
    · simp [recordsOf_append]
    · intro k q hq
      have := hfetch (k + 1) q (by simpa using hq)
      rw [show calls + 1 + k = calls + (k + 1) by omega]
      simpa [cursorAfter_append] using this
    · rw [show calls + 1 + ps.length = calls + (p :: ps).length by simp; omega]
      simpa [cursorAfter_append] using hfail

/-- C8: if the first `k` requests of `GetAllRepositories` succeed with the non-empty
pages `pages` (request `j + 1` being issued, as the code does, with the identifier of
the last non-fork entry seen so far as cursor), no non-fork identifier of these pages
reaches `end`, the entries carry the pointers the scan dereferences, and request
`k + 1` fails with `err`, then the call returns `err` together with exactly the
records of the non-fork entries of the `k` pages, in order. -/
theorem scan_returns_pages_before_error (ListAll : Fetcher) (start end_ : Int) (err : Error)
    (pages : List (List Repository))
    (hne : ∀ p ∈ pages, p ≠ [])
    (hok : ∀ p ∈ pages, ∀ e ∈ p, scanDerefsOk e = true)
    (hlt : ∀ p ∈ pages, ∀ e ∈ p, e.Fork = some false → ∀ i, e.ID = some i → i < end_)
    (hfetch : ∀ k p, pages[k]? = some p →
      ListAll k (cursorAfter start (pages.take k).flatten) = .ok p)
    (hfail : ListAll pages.length (cursorAfter start pages.flatten) = .error err) :
    ∀ fuel, pages.length < fuel →
      GetAllRepositories ListAll start end_ fuel
        = some (.fetchFailed (recordsOf pages.flatten) err) := by
  intro fuel hfuel
  have h := scanLoop_fails_after ListAll end_ err pages 0 [] start hne hok hlt
    (by simpa using hfetch) (by simpa using hfail) fuel hfuel
  simpa [GetAllRepositories] using h

/-- Witness of C8: over the corpus 5, 12, 19, 27, 40 in pages of two, a failure of the
third request returns the records of the first two pages together with the error. -/
theorem scan_returns_pages_before_error_witness :
    GetAllRepositories (failingAfter 2 "timeout" ([5, 12, 19, 27, 40].map source) 2) 0 1000 3
      = some (.fetchFailed (recordsOf [source 5, source 12, source 19, source 27]) "timeout") :=
  scan_returns_pages_before_error
    (failingAfter 2 "timeout" ([5, 12, 19, 27, 40].map source) 2) 0 1000 "timeout"
    [[source 5, source 12], [source 19, source 27]]
    (by decide) (by decide)
    (by
      intro p hp e he _ i hi
      simp only [List.mem_cons, List.mem_singleton, List.not_mem_nil, or_false] at hp
      rcases hp with rfl | rfl <;>
        simp only [List.mem_cons, List.mem_singleton, List.not_mem_nil, or_false] at he <;>
        rcases he with rfl | rfl <;>
        simp only [source, Option.some.injEq] at hi <;> omega)
    (by
      intro k p hk
      match k, hk with
      | 0, hk => simp only [List.getElem?_cons_zero, Option.some.injEq] at hk; subst hk; rfl
      | 1, hk =>
        simp only [List.getElem?_cons_succ, List.getElem?_cons_zero, Option.some.injEq] at hk
        subst hk; rfl
      | k + 2, hk => simp at hk)
    rfl 3 (by decide)

/-! ## Range of the returned identifiers -/

theorem ids_cons_some (repo : Repository) (rest : List Repository) (i : Int)
    (h : repo.ID = some i) : ids (repo :: rest) = i :: ids rest := by
  simp [ids, List.filterMap_cons, h]

theorem ids_subset_cons (repo : Repository) (rest : List Repository) :
    ∀ i ∈ ids rest, i ∈ ids (repo :: rest) := by
  intro i hi
  cases h : repo.ID with
  | none => simpa [ids, List.filterMap_cons, h] using hi
  | some j => rw [ids_cons_some _ _ _ h]; exact List.mem_cons_of_mem _ hi

theorem scanPage_bounds (start end_ : Int) (page : List Repository) :
    ∀ (allRepos : List GithubRepository) (sinceValue : Int),
      (∀ r ∈ allRepos, ∃ i, r.ID = some i ∧ start < i ∧ i < end_) →
      start ≤ sinceValue →
      (∀ i ∈ ids page, start < i) →
      (∀ a s, scanPage end_ page allRepos sinceValue = .next a s →
          (∀ r ∈ a, ∃ i, r.ID = some i ∧ start < i ∧ i < end_) ∧ start ≤ s)
        ∧ (∀ a, scanPage end_ page allRepos sinceValue = .reached a →
          ∃ body last i, a = body ++ [last] ∧ last.ID = some i ∧ start < i ∧ end_ ≤ i
            ∧ ∀ r ∈ body, ∃ i, r.ID = some i ∧ start < i ∧ i < end_) := by
  induction page with
  | nil =>
    intro allRepos sinceValue hacc hc _
    simp only [scanPage]
    refine ⟨?_, ?_⟩
    · intro a s h; cases h; exact ⟨hacc, hc⟩
    · intro a h; cases h
  | cons repo rest ih =>
    intro allRepos sinceValue hacc hc hpage
    have hrest : ∀ i ∈ ids rest, start < i := fun i hi => hpage i (ids_subset_cons repo rest i hi)
    unfold scanPage
    cases hf : repo.Fork with
    | none => simp
    | some f =>
      cases f with
      | true => simpa using ih allRepos sinceValue hacc hc hrest
      | false =>
        cases ho : repo.Owner with
        | none => simp
        | some owner =>
          cases hi : repo.ID with
          | none => simp
          | some id =>
            have hid : start < id := hpage id (by rw [ids_cons_some _ _ _ hi]; simp)
            simp only
            split
            · rename_i hge
              refine ⟨?_, ?_⟩
              · intro a s h; cases h
              · intro a h; cases h
                exact ⟨allRepos, allRecord repo owner, id, rfl, hi, hid, hge, hacc⟩
            · rename_i hlt
              refine ih _ _ ?_ (le_of_lt hid) hrest
              intro r hr
              rcases List.mem_append.1 hr with h | h
              · exact hacc r h
              · rw [List.mem_singleton.1 h]
                exact ⟨id, hi, hid, not_le.1 hlt⟩

theorem scanLoop_bounds (ListAll : Fetcher) (start end_ : Int) (habove : ListsAbove ListAll)
    (fuel : Nat) :
    ∀ (calls : Nat) (allRepos : List GithubRepository) (sinceValue : Int) (res : ScanResult)
      (out : List GithubRepository) (err : Option Error),
      (∀ r ∈ allRepos, ∃ i, r.ID = some i ∧ start < i ∧ i < end_) →
      start ≤ sinceValue →
      scanLoop ListAll end_ fuel calls allRepos sinceValue = some res →
      res.returned = some (out, err) →
      (∀ r ∈ out, ∃ i, r.ID = some i ∧ start < i)
        ∧ ∀ r ∈ out.dropLast, ∃ i, r.ID = some i ∧ i < end_ := by
  have hdone : ∀ (a : List GithubRepository),
      (∀ r ∈ a, ∃ i, r.ID = some i ∧ start < i ∧ i < end_) →
      (∀ r ∈ a, ∃ i, r.ID = some i ∧ start < i)
        ∧ ∀ r ∈ a.dropLast, ∃ i, r.ID = some i ∧ i < end_ := by
    intro a ha
    refine ⟨fun r hr => ?_, fun r hr => ?_⟩
    · obtain ⟨i, h1, h2, _⟩ := ha r hr; exact ⟨i, h1, h2⟩
    · obtain ⟨i, h1, _, h3⟩ := ha r (List.mem_of_mem_dropLast hr); exact ⟨i, h1, h3⟩
  induction fuel with
  | zero => intro calls allRepos sinceValue res out err _ _ h; simp [scanLoop] at h
  | succ fuel ih =>
    intro calls allRepos sinceValue res out err hacc hc h hret
    rw [scanLoop] at h
    cases hfetch : ListAll calls sinceValue with
    | error e =>
      simp only [hfetch, Option.some.injEq] at h
      subst h
      simp only [ScanResult.returned, Option.some.injEq, Prod.mk.injEq] at hret
      rw [← hret.1]; exact hdone _ hacc
    | ok repos =>
      have hp := scanPage_bounds start end_ repos allRepos sinceValue hacc hc
        (fun i hi => lt_of_le_of_lt hc (habove calls sinceValue repos hfetch i hi))
      simp only [hfetch] at h
      cases hs : scanPage end_ repos allRepos sinceValue with
      | nilDeref =>
        simp only [hs, Option.some.injEq] at h
        subst h
        simp [ScanResult.returned] at hret
      | reached a =>
        simp only [hs, Option.some.injEq] at h
        subst h
        simp only [ScanResult.returned, Option.some.injEq, Prod.mk.injEq] at hret
        rw [← hret.1]
        obtain ⟨body, last, i, rfl, hl, hsi, _, hbody⟩ := hp.2 a hs
        refine ⟨fun r hr => ?_, fun r hr => ?_⟩
        · rcases List.mem_append.1 hr with h | h
          · obtain ⟨j, h1, h2, _⟩ := hbody r h; exact ⟨j, h1, h2⟩
          · rw [List.mem_singleton.1 h]; exact ⟨i, hl, hsi⟩
        · rw [List.dropLast_concat] at hr
          obtain ⟨j, h1, _, h3⟩ := hbody r hr; exact ⟨j, h1, h3⟩
      | next a s =>
        simp only [hs] at h
        by_cases hl : repos.length = 0
        · rw [if_pos hl] at h
          simp only [Option.some.injEq] at h
          subst h
          simp only [ScanResult.returned, Option.some.injEq, Prod.mk.injEq] at hret
          rw [← hret.1]; exact hdone _ (hp.1 a s hs).1
        · rw [if_neg hl] at h
          exact ih _ _ _ res out err (hp.1 a s hs).1 (hp.1 a s hs).2 h hret

theorem mem_ids {rs : List Repository} {i : Int} :
    i ∈ ids rs ↔ ∃ r ∈ rs, r.ID = some i := by
  simp [ids, List.mem_filterMap]

theorem mem_after {corpus : List Repository} {since : Int} {r : Repository} :
    r ∈ after corpus since ↔ r ∈ corpus ∧ ∃ i, r.ID = some i ∧ since < i := by
  unfold after
  rw [List.mem_filter]
  constructor
  · rintro ⟨hr, h⟩
    refine ⟨hr, ?_⟩
    unfold idAbove at h
    cases hi : r.ID with
    | none => simp [hi] at h
    | some i => exact ⟨i, rfl, by simpa [hi] using h⟩
  · rintro ⟨hr, i, hi, hlt⟩
    exact ⟨hr, by simp [idAbove, hi, hlt]⟩

theorem Serves.listsAbove {corpus : List Repository} {ListAll : Fetcher}
    (h : Serves corpus ListAll) : ListsAbove ListAll := by
  intro calls since page hfetch i hi
  obtain ⟨k, _, rfl⟩ := h calls since page hfetch
  obtain ⟨r, hr, hid⟩ := mem_ids.1 hi
  obtain ⟨_, j, hj, hlt⟩ := mem_after.1 (List.mem_of_mem_take hr)
  rw [hid] at hj; cases hj; exact hlt

theorem Faithful.serves {corpus : List Repository} {ListAll : Fetcher}
    (h : Faithful corpus ListAll) : Serves corpus ListAll := by
  intro calls since page hfetch
  obtain ⟨k, hk, hok⟩ := h calls since
  rw [hok] at hfetch
  cases hfetch
  exact ⟨k, hk, rfl⟩

theorem pagedFetcher_faithful (corpus : List Repository) (perPage : Nat) (h : 1 ≤ perPage) :
    Faithful corpus (pagedFetcher corpus perPage) :=
  fun _ _ => ⟨perPage, h, rfl⟩

/-- C3 (as stated) fails: over the corpus 5, 12, 19, 27, 40 with `start = 0` and
`end = 20` the scan returns 5, 12, 19, 27, and 27 is greater than `end`. -/
theorem scan_overshoot_counterexample :
    GetAllRepositories (pagedFetcher ([5, 12, 19, 27, 40].map source) 2) 0 20 2
        = some (.reachedEnd (recordsOf ([5, 12, 19, 27].map source)))
      ∧ (27 : Int) ∈ recordIds (recordsOf ([5, 12, 19, 27].map source))
      ∧ ¬ ((27 : Int) ≤ 20) := by
  decide

/-- C3 (amended): for every start, end and corpus served by a faithful fetcher, every
record returned by `GetAllRepositories` carries an identifier greater than `start`, and
every returned record except the last one carries an identifier smaller than `end`. -/
theorem scan_ids_below_end_except_last (corpus : List Repository) (ListAll : Fetcher)
    (start end_ : Int) (hserve : Serves corpus ListAll) (fuel : Nat) (res : ScanResult)
    (out : List GithubRepository) (err : Option Error)
    (hrun : GetAllRepositories ListAll start end_ fuel = some res)
    (hret : res.returned = some (out, err)) :
    (∀ r ∈ out, ∃ i, r.ID = some i ∧ start < i)
      ∧ ∀ r ∈ out.dropLast, ∃ i, r.ID = some i ∧ i < end_ :=
  scanLoop_bounds ListAll start end_ hserve.listsAbove fuel 0 [] start res out err
    (by simp) (le_refl _) hrun hret

/-- Witness of C3 (amended): the run over 5, 12, 19, 27, 40 with `start = 0`, `end = 20`. -/
theorem scan_ids_below_end_except_last_witness :
    (∀ r ∈ recordsOf ([5, 12, 19, 27].map source), ∃ i, r.ID = some i ∧ 0 < i)
      ∧ ∀ r ∈ (recordsOf ([5, 12, 19, 27].map source)).dropLast,
          ∃ i, r.ID = some i ∧ i < 20 :=
  scan_ids_below_end_except_last ([5, 12, 19, 27, 40].map source)
    (pagedFetcher ([5, 12, 19, 27, 40].map source) 2) 0 20
    (pagedFetcher_faithful _ 2 (by decide)).serves 2
    (.reachedEnd (recordsOf ([5, 12, 19, 27].map source))) _ none (by decide) rfl

/-! ## Order of the returned identifiers -/

theorem recordIds_append_single (a : List GithubRepository) (r : GithubRepository) (i : Int)
    (h : r.ID = some i) : recordIds (a ++ [r]) = recordIds a ++ [i] := by
  simp [recordIds, List.filterMap_append, h]

theorem scanPage_sorted (end_ : Int) (page : List Repository) :
    ∀ (allRepos : List GithubRepository) (sinceValue : Int),
      (∀ r ∈ allRepos, r.ID.isSome = true) →
      (recordIds allRepos).Pairwise (· < ·) →
      (∀ i ∈ recordIds allRepos, i ≤ sinceValue) →
      (ids page).Pairwise (· < ·) →
      (∀ i ∈ ids page, sinceValue < i) →
      (∀ a s, scanPage end_ page allRepos sinceValue = .next a s →
          (∀ r ∈ a, r.ID.isSome = true) ∧ (recordIds a).Pairwise (· < ·)
            ∧ ∀ i ∈ recordIds a, i ≤ s)
        ∧ (∀ a, scanPage end_ page allRepos sinceValue = .reached a →
          (∀ r ∈ a, r.ID.isSome = true) ∧ (recordIds a).Pairwise (· < ·)) := by
  induction page with
  | nil =>
    intro allRepos sinceValue h1 h2 h3 _ _
    simp only [scanPage]
    refine ⟨?_, ?_⟩
    · intro a s h; cases h; exact ⟨h1, h2, h3⟩
    · intro a h; cases h
  | cons repo rest ih =>
    intro allRepos sinceValue h1 h2 h3 hsorted habove
    unfold scanPage
    cases hf : repo.Fork with
    | none => simp
    | some f =>
      have hsr : (ids rest).Pairwise (· < ·) := by
        cases hi : repo.ID with
        | none => simpa [ids, List.filterMap_cons, hi] using hsorted
        | some j => rw [ids_cons_some _ _ _ hi] at hsorted; exact (List.pairwise_cons.1 hsorted).2
      cases f with
      | true =>
        simpa using ih allRepos sinceValue h1 h2 h3 hsr
          (fun i hi => habove i (ids_subset_cons repo rest i hi))
      | false =>
        cases ho : repo.Owner with
        | none => simp
        | some owner =>
          cases hi : repo.ID with
          | none => simp
          | some id =>
            rw [ids_cons_some _ _ _ hi] at hsorted habove
            have hid : sinceValue < id := habove id (List.mem_cons_self _ _)
            have hrid : (allRecord repo owner).ID = some id := hi
            have g1 : ∀ r ∈ allRepos ++ [allRecord repo owner], r.ID.isSome = true := by
              intro r hr
              rcases List.mem_append.1 hr with h | h
              · exact h1 r h
              · rw [List.mem_singleton.1 h, hrid]; rfl
            have g2 : (recordIds (allRepos ++ [allRecord repo owner])).Pairwise (· < ·) := by
              rw [recordIds_append_single _ _ _ hrid, List.pairwise_append]
              refine ⟨h2, List.pairwise_singleton _ _, ?_⟩
              intro a ha b hb
              rw [List.mem_singleton.1 hb]
              exact lt_of_le_of_lt (h3 a ha) hid
            have g3 : ∀ i ∈ recordIds (allRepos ++ [allRecord repo owner]), i ≤ id := by
              intro i hi'
              rw [recordIds_append_single _ _ _ hrid] at hi'
              rcases List.mem_append.1 hi' with h | h
              · exact le_of_lt (lt_of_le_of_lt (h3 i h) hid)
              · rw [List.mem_singleton.1 h]
            simp only
            split
            · refine ⟨?_, ?_⟩
              · intro a s h; cases h
              · intro a h; cases h; exact ⟨g1, g2⟩
            · exact ih _ _ g1 g2 g3 (List.pairwise_cons.1 hsorted).2
                (fun i hi' => (List.pairwise_cons.1 hsorted).1 i hi')

theorem scanLoop_sorted (ListAll : Fetcher) (end_ : Int) (hasc : ListsAscending ListAll)
    (fuel : Nat) :
    ∀ (calls : Nat) (allRepos : List GithubRepository) (sinceValue : Int) (res : ScanResult)
      (out : List GithubRepository) (err : Option Error),
      (∀ r ∈ allRepos, r.ID.isSome = true) →
      (recordIds allRepos).Pairwise (· < ·) →
      (∀ i ∈ recordIds allRepos, i ≤ sinceValue) →
      scanLoop ListAll end_ fuel calls allRepos sinceValue = some res →
      res.returned = some (out, err) →
      (∀ r ∈ out, r.ID.isSome = true) ∧ (recordIds out).Pairwise (· < ·) := by
  induction fuel with
  | zero => intro calls allRepos sinceValue res out err _ _ _ h; simp [scanLoop] at h
  | succ fuel ih =>
    intro calls allRepos sinceValue res out err h1 h2 h3 h hret
    rw [scanLoop] at h
    cases hfetch : ListAll calls sinceValue with
    | error e =>
      simp only [hfetch, Option.some.injEq] at h
      subst h
      simp only [ScanResult.returned, Option.some.injEq, Prod.mk.injEq] at hret
      rw [← hret.1]; exact ⟨h1, h2⟩
    | ok repos =>
      have hp := scanPage_sorted end_ repos allRepos sinceValue h1 h2 h3
        (hasc calls sinceValue repos hfetch).1 (hasc calls sinceValue repos hfetch).2
      simp only [hfetch] at h
      cases hs : scanPage end_ repos allRepos sinceValue with
      | nilDeref =>
        simp only [hs, Option.some.injEq] at h
        subst h
        simp [ScanResult.returned] at hret
      | reached a =>
        simp only [hs, Option.some.injEq] at h
        subst h
        simp only [ScanResult.returned, Option.some.injEq, Prod.mk.injEq] at hret
        rw [← hret.1]; exact hp.2 a hs
      | next a s =>
        simp only [hs] at h
        have hn := hp.1 a s hs
        by_cases hl : repos.length = 0
        · rw [if_pos hl] at h
          simp only [Option.some.injEq] at h
          subst h
          simp only [ScanResult.returned, Option.some.injEq, Prod.mk.injEq] at hret
          rw [← hret.1]; exact ⟨hn.1, hn.2.1⟩
        · rw [if_neg hl] at h
          exact ih _ _ _ res out err hn.1 hn.2.1 hn.2.2 h hret

/-- C6: for every fetcher whose pages list their entries in (strictly) ascending order
of identifier, all above the requested cursor, every record of the sequence returned by
`GetAllRepositories`, also of one returned next to an error, carries an identifier, and
these identifiers are strictly increasing along the sequence, hence without duplicates. -/
theorem scan_ids_strictly_increasing (ListAll : Fetcher) (start end_ : Int)
    (hasc : ListsAscending ListAll) (fuel : Nat) (res : ScanResult)
    (out : List GithubRepository) (err : Option Error)
    (hrun : GetAllRepositories ListAll start end_ fuel = some res)
    (hret : res.returned = some (out, err)) :
    (∀ r ∈ out, r.ID.isSome = true) ∧ (recordIds out).Pairwise (· < ·)
      ∧ (recordIds out).Nodup := by
  have h := scanLoop_sorted ListAll end_ hasc fuel 0 [] start res out err
    (by simp) (by simp [recordIds]) (by simp [recordIds]) hrun hret
  exact ⟨h.1, h.2, h.2.imp (fun hab => ne_of_lt hab)⟩

theorem serves_listsAscending {corpus : List Repository} {ListAll : Fetcher}
    (hasc : Ascending corpus) (h : Serves corpus ListAll) : ListsAscending ListAll := by
  intro calls since page hfetch
  refine ⟨?_, h.listsAbove calls since page hfetch⟩
  obtain ⟨k, _, rfl⟩ := h calls since page hfetch
  have hsub : List.Sublist ((after corpus since).take k) corpus :=
    (List.take_sublist _ _).trans (List.filter_sublist _)
  exact hasc.2.sublist (hsub.filterMap _)

theorem failingAfter_serves (good : Nat) (err : Error) (corpus : List Repository)
    (perPage : Nat) (h : 1 ≤ perPage) : Serves corpus (failingAfter good err corpus perPage) := by
  intro calls since page hfetch
  unfold failingAfter at hfetch
  split at hfetch
  · exact (pagedFetcher_faithful corpus perPage h).serves calls since page hfetch
  · cases hfetch

/-- Witness of C6: the sequence returned next to the error of the third request over
5, 12, 19, 27, 40 is strictly increasing. -/
theorem scan_ids_strictly_increasing_witness :
    (∀ r ∈ recordsOf ([5, 12, 19, 27].map source), r.ID.isSome = true)
      ∧ (recordIds (recordsOf ([5, 12, 19, 27].map source))).Pairwise (· < ·)
      ∧ (recordIds (recordsOf ([5, 12, 19, 27].map source))).Nodup :=
  scan_ids_strictly_increasing
    (failingAfter 2 "timeout" ([5, 12, 19, 27, 40].map source) 2) 0 1000
    (serves_listsAscending ⟨by decide, by decide⟩ (failingAfter_serves 2 "timeout" _ 2 (by decide))) 3
    (.fetchFailed (recordsOf ([5, 12, 19, 27].map source)) "timeout") _ (some "timeout")
    (by decide) rfl

/-! ## Scanning a sorted corpus of sources -/

theorem scanLoop_fuel_succ (ListAll : Fetcher) (end_ : Int) (fuel : Nat) :
    ∀ (calls : Nat) (allRepos : List GithubRepository) (sinceValue : Int) (res : ScanResult),
      scanLoop ListAll end_ fuel calls allRepos sinceValue = some res →
      scanLoop ListAll end_ (fuel + 1) calls allRepos sinceValue = some res := by
  induction fuel with
  | zero => intro calls allRepos sinceValue res h; simp [scanLoop] at h
  | succ fuel ih =>
    intro calls allRepos sinceValue res h
    rw [scanLoop] at h ⊢
    cases hfetch : ListAll calls sinceValue with
    | error e => simpa [hfetch] using h
    | ok repos =>
      simp only [hfetch] at h ⊢
      cases hs : scanPage end_ repos allRepos sinceValue with
      | nilDeref => simpa [hs] using h
      | reached a => simpa [hs] using h
      | next a s =>
        simp only [hs] at h ⊢
        by_cases hl : repos.length = 0
        · rw [if_pos hl] at h ⊢; exact h
        · rw [if_neg hl] at h ⊢; exact ih _ _ _ _ h

theorem scanLoop_fuel_mono (ListAll : Fetcher) (end_ : Int) (fuel fuel1 : Nat) (calls : Nat)
    (allRepos : List GithubRepository) (sinceValue : Int) (res : ScanResult)
    (h : scanLoop ListAll end_ fuel calls allRepos sinceValue = some res) (hle : fuel ≤ fuel1) :
    scanLoop ListAll end_ fuel1 calls allRepos sinceValue = some res := by
  induction hle with
  | refl => exact h
  | step _ ih => exact scanLoop_fuel_succ _ _ _ _ _ _ _ ih

theorem throughEnd_of_not_any (end_ : Int) (page : List Repository)
    (h : page.any (reachesEnd end_) = false) : throughEnd end_ page = page := by
  induction page with
  | nil => rfl
  | cons r rest ih =>
    simp only [List.any_cons, Bool.or_eq_false_iff] at h
    simp [throughEnd, h.1, ih h.2]

theorem throughEnd_append_of_not_any (end_ : Int) (page rest : List Repository)
    (h : page.any (reachesEnd end_) = false) :
    throughEnd end_ (page ++ rest) = page ++ throughEnd end_ rest := by
  induction page with
  | nil => rfl
  | cons r page ih =>
    simp only [List.any_cons, Bool.or_eq_false_iff] at h
    simp [throughEnd, h.1, ih h.2]

theorem throughEnd_append_of_any (end_ : Int) (page rest : List Repository)
    (h : page.any (reachesEnd end_) = true) :
    throughEnd end_ (page ++ rest) = throughEnd end_ page := by
  induction page with
  | nil => simp at h
  | cons r page ih =>
    by_cases hr : reachesEnd end_ r = true
    · simp [throughEnd, hr]
    · have hr1 : reachesEnd end_ r = false := by simpa using hr
      simp only [List.any_cons, hr1, Bool.false_or] at h
      simp [throughEnd, hr1, ih h]

theorem scanPage_sources (end_ : Int) (page : List Repository) :
    ∀ (allRepos : List GithubRepository) (sinceValue : Int),
      AllSources page →
      scanPage end_ page allRepos sinceValue
        = if page.any (reachesEnd end_) then
            .reached (allRepos ++ recordsOf (throughEnd end_ page))
          else .next (allRepos ++ recordsOf page) (cursorAfter sinceValue page) := by
  induction page with
  | nil => intro allRepos sinceValue _; simp [scanPage, recordsOf, cursorAfter]
  | cons repo rest ih =>
    intro allRepos sinceValue hsrc
    obtain ⟨hf, ho, hi⟩ := hsrc repo (List.mem_cons_self _ _)
    have hrest : AllSources rest := fun e he => hsrc e (List.mem_cons_of_mem _ he)
    obtain ⟨owner, ho⟩ := Option.isSome_iff_exists.1 ho
    obtain ⟨id, hi⟩ := Option.isSome_iff_exists.1 hi
    rw [scanPage]
    simp only [hf, ho, hi]
    by_cases hge : id ≥ end_
    · have hr : reachesEnd end_ repo = true := by simp [reachesEnd, hi, hge]
      simp [if_pos hge, hr, throughEnd, recordsOf, isSource, hf, recordOf, ho]
    · have hr : reachesEnd end_ repo = false := by simp [reachesEnd, hi, hge]
      rw [if_neg hge, ih _ _ hrest]
      simp only [List.any_cons, hr, Bool.false_or, throughEnd, Bool.false_eq_true, if_false]
      rw [recordsOf_cons_source _ _ _ hf ho, recordsOf_cons_source _ _ _ hf ho,
        cursorAfter_cons_source _ _ _ _ hf hi]
      simp

theorem cursorAfter_concat_source (since i : Int) (p : List Repository) (x : Repository)
    (h : x.Fork = some false) (hi : x.ID = some i) : cursorAfter since (p ++ [x]) = i := by
  rw [cursorAfter_append, cursorAfter_cons_source _ _ _ _ h hi]
  rfl

theorem ids_append (a b : List Repository) : ids (a ++ b) = ids a ++ ids b := by
  simp [ids, List.filterMap_append]

theorem after_eq_of_split (corpus : List Repository) (hasc : Ascending corpus)
    (c i : Int) (p q : List Repository) (x : Repository)
    (hsplit : after corpus c = p ++ [x] ++ q) (hi : x.ID = some i) :
    after corpus i = q := by
  have hx : x ∈ after corpus c := by rw [hsplit]; simp
  obtain ⟨_, j, hj, hcj⟩ := mem_after.1 hx
  rw [hi] at hj; cases hj
  have hsorted : (ids (p ++ [x] ++ q)).Pairwise (· < ·) := by
    rw [← hsplit]
    exact hasc.2.sublist ((List.filter_sublist _).filterMap _)
  rw [ids_append, ids_append, List.pairwise_append] at hsorted
  obtain ⟨hpx, _, hcross⟩ := hsorted
  rw [List.pairwise_append] at hpx
  have hxi : i ∈ ids [x] := mem_ids.2 ⟨x, by simp, hi⟩
  have hstep : after corpus i = (after corpus c).filter (idAbove i) := by
    unfold after
    rw [List.filter_filter]
    apply List.filter_congr
    intro r _
    unfold idAbove
    cases hr : r.ID with
    | none => simp
    | some k =>
      by_cases hk : i < k
      · have : c < k := lt_trans hcj hk
        simp [hk, this]
      · simp [hk]
  rw [hstep, hsplit, List.filter_append, List.filter_append]
  have hp : p.filter (idAbove i) = [] := by
    rw [List.filter_eq_nil_iff]
    intro r hr
    unfold idAbove
    cases hrid : r.ID with
    | none => simp
    | some k =>
      have : k < i := hpx.2.2 k (mem_ids.2 ⟨r, hr, hrid⟩) i hxi
      simp [not_lt.2 (le_of_lt this)]
  have hxf : [x].filter (idAbove i) = [] := by
    simp [idAbove, hi]
  have hq : q.filter (idAbove i) = q := by
    rw [List.filter_eq_self]
    intro r hr
    have hrc : r ∈ after corpus c := by rw [hsplit]; simp [hr]
    obtain ⟨_, k, hk, _⟩ := mem_after.1 hrc
    have : i < k := hcross i (List.mem_append_right _ hxi) k (mem_ids.2 ⟨r, hr, hk⟩)
    simp [idAbove, hk, this]
  rw [hp, hxf, hq]; rfl

theorem after_cursorAfter_take (corpus : List Repository) (hsrc : AllSources corpus)
    (hasc : Ascending corpus) (c : Int) (k : Nat) (hk : 1 ≤ k) (hne : after corpus c ≠ []) :
    after corpus (cursorAfter c ((after corpus c).take k)) = (after corpus c).drop k := by
  have hpne : (after corpus c).take k ≠ [] := by
    intro h
    rcases List.take_eq_nil_iff.1 h with h | h
    · omega
    · exact hne h
  rcases List.eq_nil_or_concat ((after corpus c).take k) with h | ⟨p, x, hpx⟩
  · exact absurd h hpne
  · have hx : x ∈ after corpus c :=
      List.mem_of_mem_take (by rw [hpx]; simp)
    obtain ⟨hxc, i, hi, _⟩ := mem_after.1 hx
    rw [hpx, List.concat_eq_append, cursorAfter_concat_source c i p x (hsrc x hxc).1 hi]
    apply after_eq_of_split corpus hasc c i p ((after corpus c).drop k) x _ hi
    rw [← List.concat_eq_append, ← hpx, List.take_append_drop]

theorem allSources_after_take (corpus : List Repository) (hsrc : AllSources corpus)
    (c : Int) (k : Nat) : AllSources ((after corpus c).take k) :=
  fun r hr => hsrc r (mem_after.1 (List.mem_of_mem_take hr)).1

/-- What the scan yields from the cursor `c` on a sorted corpus of sources. -/
theorem scanLoop_sorted_corpus (corpus : List Repository) (ListAll : Fetcher) (end_ : Int)
    (hsrc : AllSources corpus) (hasc : Ascending corpus) (hf : Faithful corpus ListAll)
    (fuel : Nat) :
    ∀ (calls : Nat) (allRepos : List GithubRepository) (c : Int),
      (after corpus c).length < fuel →
      scanLoop ListAll end_ fuel calls allRepos c
        = some (if (after corpus c).any (reachesEnd end_) then
            .reachedEnd (allRepos ++ recordsOf (throughEnd end_ (after corpus c)))
          else .exhausted (allRepos ++ recordsOf (after corpus c))) := by
  induction fuel with
  | zero => intro calls allRepos c h; omega
  | succ fuel ih =>
    intro calls allRepos c hlen
    obtain ⟨k, hk, hfetch⟩ := hf calls c
    rw [scanLoop, hfetch]
    simp only
    rw [scanPage_sources end_ _ allRepos c (allSources_after_take corpus hsrc c k)]
    have hsplit : (after corpus c).take k ++ (after corpus c).drop k = after corpus c :=
      List.take_append_drop _ _
    by_cases hany : ((after corpus c).take k).any (reachesEnd end_) = true
    · have hall : (after corpus c).any (reachesEnd end_) = true := by
        rw [← hsplit, List.any_append, hany]; rfl
      rw [if_pos hany, if_pos hall]
      simp only
      rw [← throughEnd_append_of_any end_ _ ((after corpus c).drop k) hany, hsplit]
    · have hany1 : ((after corpus c).take k).any (reachesEnd end_) = false := by simpa using hany
      rw [if_neg hany]
      simp only
      by_cases hl : ((after corpus c).take k).length = 0
      · have hnil : after corpus c = [] := by
          rcases List.take_eq_nil_iff.1 (List.length_eq_zero.1 hl) with h | h
          · omega
          · exact h
        rw [if_pos hl, hnil]
        simp
      · have hne : after corpus c ≠ [] := by
          intro h; rw [h] at hl; simp at hl
        rw [if_neg hl]
        have hdrop : ((after corpus c).drop k).length < fuel := by
          have : 0 < (after corpus c).length := List.length_pos.2 hne
          rw [List.length_drop]; omega
        have hih := ih (calls + 1) (allRepos ++ recordsOf ((after corpus c).take k))
          (cursorAfter c ((after corpus c).take k))
        rw [after_cursorAfter_take corpus hsrc hasc c k hk hne] at hih
        rw [hih hdrop]
        have hanyeq : (after corpus c).any (reachesEnd end_)
            = ((after corpus c).drop k).any (reachesEnd end_) := by
          conv_lhs => rw [← hsplit, List.any_append, hany1, Bool.false_or]
        have hthrough : throughEnd end_ (after corpus c)
            = (after corpus c).take k ++ throughEnd end_ ((after corpus c).drop k) := by
          conv_lhs => rw [← hsplit, throughEnd_append_of_not_any end_ _ _ hany1]
        have hrec : recordsOf (after corpus c)
            = recordsOf ((after corpus c).take k) ++ recordsOf ((after corpus c).drop k) := by
          conv_lhs => rw [← hsplit, recordsOf_append]
        rw [hanyeq, hthrough, hrec, recordsOf_append]
        simp only [List.append_assoc]

theorem recordIds_recordsOf (rs : List Repository) (hsrc : AllSources rs) :
    recordIds (recordsOf rs) = ids rs := by
  induction rs with
  | nil => rfl
  | cons r rest ih =>
    obtain ⟨hf, ho, hi⟩ := hsrc r (List.mem_cons_self _ _)
    obtain ⟨owner, ho⟩ := Option.isSome_iff_exists.1 ho
    obtain ⟨id, hi⟩ := Option.isSome_iff_exists.1 hi
    have hrest : AllSources rest := fun e he => hsrc e (List.mem_cons_of_mem _ he)
    rw [recordsOf_cons_source _ _ _ hf ho, ids_cons_some _ _ _ hi]
    have : (allRecord r owner).ID = some id := hi
    simp only [recordIds, List.filterMap_cons, this]
    exact congrArg _ (ih hrest)

theorem ids_after (corpus : List Repository) (start : Int) :
    ids (after corpus start) = (ids corpus).filter (fun i => decide (start < i)) := by
  induction corpus with
  | nil => rfl
  | cons r rest ih =>
    have ih1 : ids (List.filter (idAbove start) rest)
        = (ids rest).filter (fun i => decide (start < i)) := ih
    cases hi : r.ID with
    | none =>
      have h1 : idAbove start r = false := by simp [idAbove, hi]
      have h2 : ids (r :: rest) = ids rest := by simp [ids, List.filterMap_cons, hi]
      simp only [after, List.filter_cons, h1, h2]
      exact ih1
    | some i =>
      rw [ids_cons_some _ _ _ hi]
      by_cases hlt : start < i
      · have h1 : idAbove start r = true := by simp [idAbove, hi, hlt]
        simp only [after, List.filter_cons, h1, if_true, decide_eq_true hlt]
        rw [ids_cons_some _ _ _ hi, ih1]
      · have h1 : idAbove start r = false := by simp [idAbove, hi, hlt]
        simp only [after, List.filter_cons, h1, decide_eq_false hlt]
        exact ih1

theorem ids_filter_inRange (corpus : List Repository) (start end_ : Int) :
    ids (corpus.filter (inRange start end_))
      = (ids corpus).filter (fun i => decide (start < i) && decide (i ≤ end_)) := by
  induction corpus with
  | nil => rfl
  | cons r rest ih =>
    cases hi : r.ID with
    | none =>
      have h1 : inRange start end_ r = false := by simp [inRange, hi]
      have h2 : ids (r :: rest) = ids rest := by simp [ids, List.filterMap_cons, hi]
      simp only [List.filter_cons, h1, h2]
      exact ih
    | some i =>
      rw [ids_cons_some _ _ _ hi]
      have h1 : inRange start end_ r = (decide (start < i) && decide (i ≤ end_)) := by
        simp [inRange, hi]
      cases hb : (decide (start < i) && decide (i ≤ end_)) with
      | true =>
        simp only [List.filter_cons, h1, hb, if_true]
        rw [ids_cons_some _ _ _ hi, ih]
      | false =>
        simp only [List.filter_cons, h1, hb]
        exact ih

theorem throughEnd_eq_filter (start end_ : Int) (l : List Repository) :
    (ids l).Pairwise (· < ·) → (∀ r ∈ l, ∃ i, r.ID = some i ∧ start < i) → end_ ∈ ids l →
    throughEnd end_ l = l.filter (inRange start end_) := by
  induction l with
  | nil => intro _ _ h; simp [ids] at h
  | cons r rest ih =>
    intro hsorted hall hmem
    obtain ⟨i, hi, hsi⟩ := hall r (List.mem_cons_self _ _)
    have hrest : ∀ e ∈ rest, ∃ j, e.ID = some j ∧ start < j :=
      fun e he => hall e (List.mem_cons_of_mem _ he)
    rw [ids_cons_some _ _ _ hi] at hsorted hmem
    obtain ⟨hhead, htail⟩ := List.pairwise_cons.1 hsorted
    by_cases hge : end_ ≤ i
    · have hr : reachesEnd end_ r = true := by simp [reachesEnd, hi, hge]
      have hei : end_ = i := by
        rcases List.mem_cons.1 hmem with h | h
        · exact h
        · have := hhead end_ h; omega
      have hin : inRange start end_ r = true := by simp [inRange, hi, hsi, hei]
      have hnone : rest.filter (inRange start end_) = [] := by
        rw [List.filter_eq_nil_iff]
        intro e he
        obtain ⟨j, hj, _⟩ := hrest e he
        have : i < j := hhead j (mem_ids.2 ⟨e, he, hj⟩)
        have hje : ¬ j ≤ end_ := by omega
        simp [inRange, hj, hje]
      simp [throughEnd, hr, List.filter_cons, hin, hnone]
    · have hr : reachesEnd end_ r = false := by simp [reachesEnd, hi, hge]
      have hin : inRange start end_ r = true := by
        have : i ≤ end_ := by omega
        simp [inRange, hi, hsi, this]
      have hmem1 : end_ ∈ ids rest := by
        rcases List.mem_cons.1 hmem with h | h
        · omega
        · exact h
      simp [throughEnd, hr, List.filter_cons, hin, ih htail hrest hmem1]

theorem filter_inRange_after (corpus : List Repository) (start end_ : Int) :
    (after corpus start).filter (inRange start end_) = corpus.filter (inRange start end_) := by
  unfold after
  rw [List.filter_filter]
  apply List.filter_congr
  intro r _
  unfold inRange idAbove
  cases r.ID with
  | none => rfl
  | some i => by_cases h : start < i <;> simp [h]

theorem allSources_map_source (l : List Int) : AllSources (l.map source) := by
  intro r hr
  obtain ⟨i, _, rfl⟩ := List.mem_map.1 hr
  exact ⟨rfl, rfl, rfl⟩

/-- C4: for every corpus of non-fork entries sorted by identifier, served by a faithful
never-failing fetcher with any page sizes `≥ 1`, and every `start < end` where `end`
is an identifier of the corpus, `GetAllRepositories` returns through the boundary
return, without error, exactly the records of the entries whose identifier lies in
`(start, end]`, in corpus order; their identifiers are the identifiers of the corpus in
`(start, end]`.  More than `corpus.length` requests are never needed. -/
theorem scan_up_to_listed_end (corpus : List Repository) (ListAll : Fetcher)
    (start end_ : Int) (hsrc : AllSources corpus) (hasc : Ascending corpus)
    (hf : Faithful corpus ListAll) (hlt : start < end_) (hend : end_ ∈ ids corpus) :
    (∀ fuel, corpus.length < fuel →
        GetAllRepositories ListAll start end_ fuel
          = some (.reachedEnd (recordsOf (corpus.filter (inRange start end_)))))
      ∧ recordIds (recordsOf (corpus.filter (inRange start end_)))
          = (ids corpus).filter (fun i => decide (start < i) && decide (i ≤ end_)) := by
  have hsub : AllSources (corpus.filter (inRange start end_)) :=
    fun r hr => hsrc r (List.mem_of_mem_filter hr)
  refine ⟨?_, by rw [recordIds_recordsOf _ hsub, ids_filter_inRange]⟩
  intro fuel hfuel
  have hlen : (after corpus start).length < fuel :=
    lt_of_le_of_lt (List.length_filter_le _ _) hfuel
  have h := scanLoop_sorted_corpus corpus ListAll end_ hsrc hasc hf fuel 0 [] start hlen
  obtain ⟨r, hr, hrid⟩ := mem_ids.1 hend
  have hrafter : r ∈ after corpus start := mem_after.2 ⟨hr, end_, hrid, hlt⟩
  have hany : (after corpus start).any (reachesEnd end_) = true :=
    List.any_eq_true.2 ⟨r, hrafter, by simp [reachesEnd, hrid]⟩
  have hthrough : throughEnd end_ (after corpus start) = corpus.filter (inRange start end_) := by
    rw [throughEnd_eq_filter start end_ (after corpus start)
      (hasc.2.sublist ((List.filter_sublist _).filterMap _))
      (fun e he => (mem_after.1 he).2) (mem_ids.2 ⟨r, hrafter, hrid⟩)]
    exact filter_inRange_after corpus start end_
  rw [if_pos hany, hthrough] at h
  simpa [GetAllRepositories] using h

/-- Witness of C4: the corpus 5, 12, 19, 27, 40 in pages of two, `start = 0`, `end = 27`
gives the records of 5, 12, 19, 27. -/
theorem scan_up_to_listed_end_witness :
    GetAllRepositories (pagedFetcher ([5, 12, 19, 27, 40].map source) 2) 0 27 6
        = some (.reachedEnd (recordsOf ([5, 12, 19, 27].map source)))
      ∧ recordIds (recordsOf ([5, 12, 19, 27].map source)) = [5, 12, 19, 27] :=
  ⟨(scan_up_to_listed_end ([5, 12, 19, 27, 40].map source)
      (pagedFetcher ([5, 12, 19, 27, 40].map source) 2) 0 27 (allSources_map_source _)
      ⟨by decide, by decide⟩ (pagedFetcher_faithful _ 2 (by decide)) (by decide)
      (by decide)).1 6 (by decide),
    by decide⟩

/-- C5: for every corpus of non-fork entries sorted by identifier, served by a faithful
never-failing fetcher, and every `end` greater than all identifiers of the corpus,
`GetAllRepositories` returns through the empty-page exit, without error, the records of
all entries with identifier greater than `start`, in corpus order.  More than
`corpus.length` requests are never needed. -/
theorem scan_exhausts_corpus (corpus : List Repository) (ListAll : Fetcher)
    (start end_ : Int) (hsrc : AllSources corpus) (hasc : Ascending corpus)
    (hf : Faithful corpus ListAll) (hend : ∀ i ∈ ids corpus, i < end_) :
    (∀ fuel, corpus.length < fuel →
        GetAllRepositories ListAll start end_ fuel
          = some (.exhausted (recordsOf (after corpus start))))
      ∧ recordIds (recordsOf (after corpus start))
          = (ids corpus).filter (fun i => decide (start < i)) := by
  have hsub : AllSources (after corpus start) := fun r hr => hsrc r (mem_after.1 hr).1
  refine ⟨?_, by rw [recordIds_recordsOf _ hsub, ids_after]⟩
  intro fuel hfuel
  have hlen : (after corpus start).length < fuel :=
    lt_of_le_of_lt (List.length_filter_le _ _) hfuel
  have h := scanLoop_sorted_corpus corpus ListAll end_ hsrc hasc hf fuel 0 [] start hlen
  have hany : ¬ (after corpus start).any (reachesEnd end_) = true := by
    intro hany
    obtain ⟨r, hr, hre⟩ := List.any_eq_true.1 hany
    obtain ⟨hrc, i, hi, _⟩ := mem_after.1 hr
    have := hend i (mem_ids.2 ⟨r, hrc, hi⟩)
    simp [reachesEnd, hi] at hre
    omega
  rw [if_neg hany] at h
  simpa [GetAllRepositories] using h

/-- Witness of C5: the corpus 5, 12, 19, 27, 40 in pages of two, `start = 0`,
`end = 1000` gives the records of the whole corpus through the empty-page exit. -/
theorem scan_exhausts_corpus_witness :
    GetAllRepositories (pagedFetcher ([5, 12, 19, 27, 40].map source) 2) 0 1000 6
        = some (.exhausted (recordsOf ([5, 12, 19, 27, 40].map source)))
      ∧ recordIds (recordsOf ([5, 12, 19, 27, 40].map source)) = [5, 12, 19, 27, 40] :=
  ⟨(scan_exhausts_corpus ([5, 12, 19, 27, 40].map source)
      (pagedFetcher ([5, 12, 19, 27, 40].map source) 2) 0 1000 (allSources_map_source _)
      ⟨by decide, by decide⟩ (pagedFetcher_faithful _ 2 (by decide)) (by decide)).1 6
      (by decide),
    by decide⟩

/-! ## Convergence of the bound finder -/

theorem wrapInt64_of_range (x : Int) (h1 : -2 ^ 63 ≤ x) (h2 : x < 2 ^ 63) : wrapInt64 x = x := by
  unfold wrapInt64; omega

theorem countLoop_fuel_succ (ListAll : Fetcher) (fuel : Nat) :
    ∀ (calls : Nat) (lastValue sinceValue : Int) (res : CountResult),
      countLoop ListAll fuel calls lastValue sinceValue = some res →
      countLoop ListAll (fuel + 1) calls lastValue sinceValue = some res := by
  induction fuel with
  | zero => intro calls lastValue sinceValue res h; simp [countLoop] at h
  | succ fuel ih =>
    intro calls lastValue sinceValue res h
    rw [countLoop] at h ⊢
    cases hfetch : ListAll calls sinceValue with
    | error e => simpa [hfetch] using h
    | ok repos =>
      simp only [hfetch] at h ⊢
      cases hc : countPage repos sinceValue with
      | none => simpa [hc] using h
      | some s =>
        simp only [hc] at h ⊢
        by_cases hl : repos.length = 0
        · rw [if_pos hl] at h ⊢
          by_cases hs : s = lastValue
          · rw [if_pos hs] at h ⊢; exact h
          · rw [if_neg hs] at h ⊢; exact ih _ _ _ _ h
        · rw [if_neg hl] at h ⊢; exact ih _ _ _ _ h

theorem countLoop_fuel_mono (ListAll : Fetcher) (fuel fuel1 : Nat) (calls : Nat)
    (lastValue sinceValue : Int) (res : CountResult)
    (h : countLoop ListAll fuel calls lastValue sinceValue = some res) (hle : fuel ≤ fuel1) :
    countLoop ListAll fuel1 calls lastValue sinceValue = some res := by
  induction hle with
  | refl => exact h
  | step _ ih => exact countLoop_fuel_succ _ _ _ _ _ _ ih

theorem countPage_eq_cursorAfter (page : List Repository) :
    ∀ (sinceValue : Int), (∀ e ∈ page, countDerefsOk e = true) →
      countPage page sinceValue = some (cursorAfter sinceValue page) := by
  induction page with
  | nil => intro sinceValue _; rfl
  | cons repo rest ih =>
    intro sinceValue h
    have hr := h repo (List.mem_cons_self _ _)
    have hrest : ∀ e ∈ rest, countDerefsOk e = true := fun e he => h e (List.mem_cons_of_mem _ he)
    unfold countDerefsOk at hr
    rw [countPage]
    cases hf : repo.Fork with
    | none => simp [hf] at hr
    | some f =>
      cases f with
      | true => simpa [cursorAfter_cons_fork _ _ _ hf] using ih sinceValue hrest
      | false =>
        simp only [hf] at hr
        cases hi : repo.ID with
        | none => simp [hi] at hr
        | some id => simpa [cursorAfter_cons_source _ _ _ _ hf hi] using ih id hrest

theorem foldl_max_eq (l : List Int) :
    ∀ (a L : Int), (∀ i ∈ l, i ≤ L) → a ≤ L → (L = a ∨ L ∈ l) → l.foldl max a = L := by
  induction l with
  | nil => intro a L _ _ h; rcases h with h | h
           · exact h.symm
           · simp at h
  | cons x l ih =>
    intro a L hall ha h
    rw [List.foldl_cons]
    have hx : x ≤ L := hall x (List.mem_cons_self _ _)
    apply ih _ _ (fun i hi => hall i (List.mem_cons_of_mem _ hi)) (max_le ha hx)
    rcases h with h | h
    · left; rw [h]; exact (max_eq_left (h ▸ hx)).symm
    · rcases List.mem_cons.1 h with h | h
      · left; rw [h]; exact (max_eq_right (h ▸ ha)).symm
      · right; exact h

theorem greatestId_eq (corpus : List Repository) (L : Int) (h0 : 0 ≤ L)
    (hmem : L = 0 ∨ L ∈ ids corpus) (hnone : after corpus L = []) : greatestId corpus = L := by
  apply foldl_max_eq _ _ _ _ h0 hmem
  intro i hi
  by_contra hlt
  obtain ⟨r, hr, hid⟩ := mem_ids.1 hi
  have : r ∈ after corpus L := mem_after.2 ⟨hr, i, hid, not_le.1 hlt⟩
  rw [hnone] at this
  simp at this

theorem after_length_lt (corpus : List Repository) (L M : Int) (hLM : L < M)
    (hM : M ∈ ids corpus) : (after corpus M).length < (after corpus L).length := by
  have hstep : after corpus M = (after corpus L).filter (idAbove M) := by
    unfold after
    rw [List.filter_filter]
    apply List.filter_congr
    intro r _
    unfold idAbove
    cases hr : r.ID with
    | none => simp
    | some k =>
      by_cases hk : M < k
      · have : L < k := lt_trans hLM hk
        simp [hk, this]
      · simp [hk]
  rw [hstep, List.length_filter_lt_length_iff_exists]
  obtain ⟨r, hr, hid⟩ := mem_ids.1 hM
  exact ⟨r, mem_after.2 ⟨hr, M, hid, hLM⟩, by simp [idAbove, hid]⟩

/-- The loop of the bound finder converges from every state `(L, S)` with
`0 ≤ L ≤ S ≤ 2 L` where `L` is 0 or an identifier of the corpus. -/
theorem countLoop_converges (corpus : List Repository) (ListAll : Fetcher)
    (hsrc : ∀ r ∈ corpus, r.Fork = some false)
    (hpos : ∀ i ∈ ids corpus, 0 < i ∧ 3 * i < 2 ^ 63)
    (hf : Faithful corpus ListAll) (m : Nat) :
    ∀ (L : Int), (after corpus L).length ≤ m → 0 ≤ L → (L = 0 ∨ L ∈ ids corpus) →
    ∀ (d : Nat) (S : Int) (calls : Nat), (S - L).toNat ≤ d → L ≤ S → S ≤ 2 * L →
      ∃ fuel, countLoop ListAll fuel calls L S = some (.ret (greatestId corpus) none) := by
  induction m using Nat.strong_induction_on with
  | _ m ihm =>
    intro L hm hL0 hLmem d
    have hL3 : 3 * L < 2 ^ 63 := by
      rcases hLmem with h | h
      · rw [h]; norm_num
      · exact (hpos L h).2
    induction d using Nat.strong_induction_on with
    | _ d ihd =>
      intro S calls hd hLS hS2
      obtain ⟨k, hk, hfetch⟩ := hf calls S
      have hderef : ∀ e ∈ (after corpus S).take k, countDerefsOk e = true := by
        intro e he
        obtain ⟨hec, i, hi, _⟩ := mem_after.1 (List.mem_of_mem_take he)
        simp [countDerefsOk, hsrc e hec, hi]
      have hcount := countPage_eq_cursorAfter _ S hderef
      by_cases hnil : after corpus S = []
      · -- empty page
        have hfetch0 : ListAll calls S = .ok [] := by rw [hfetch, hnil, List.take_nil]
        by_cases hSL : S = L
        · refine ⟨1, ?_⟩
          rw [countLoop, hfetch0]
          simp only [countPage, List.length_nil, eq_self_iff_true, if_true]
          rw [if_pos hSL, hSL, greatestId_eq corpus L hL0 hLmem (hSL ▸ hnil)]
        · have hlt : L < S := lt_of_le_of_ne hLS (Ne.symm hSL)
          have hw : wrapInt64 (L + S) = L + S := wrapInt64_of_range _ (by omega) (by omega)
          have hdiv : Int.tdiv (L + S) 2 = (L + S) / 2 :=
            Int.tdiv_eq_ediv (by omega) (by decide)
          obtain ⟨fuel, hfuel⟩ := ihd ((L + S) / 2 - L).toNat (by omega) ((L + S) / 2)
            (calls + 1) (le_refl _) (by omega) (by omega)
          refine ⟨fuel + 1, ?_⟩
          rw [countLoop, hfetch0]
          simp only [countPage, List.length_nil, eq_self_iff_true, if_true]
          rw [if_neg hSL, hw, hdiv]
          exact hfuel
      · -- non-empty page
        have hpne : (after corpus S).take k ≠ [] := by
          intro h
          rcases List.take_eq_nil_iff.1 h with h | h
          · omega
          · exact hnil h
        rcases List.eq_nil_or_concat ((after corpus S).take k) with h | ⟨p, x, hpx⟩
        · exact absurd h hpne
        · have hx : x ∈ after corpus S := List.mem_of_mem_take (by rw [hpx]; simp)
          obtain ⟨hxc, M, hM, hSM⟩ := mem_after.1 hx
          have hMmem : M ∈ ids corpus := mem_ids.2 ⟨x, hxc, hM⟩
          have hcur : cursorAfter S ((after corpus S).take k) = M := by
            rw [hpx, List.concat_eq_append, cursorAfter_concat_source S M p x (hsrc x hxc) hM]
          have hM3 := (hpos M hMmem).2
          have hM0 := (hpos M hMmem).1
          have hw : wrapInt64 (M * 2) = 2 * M := by
            rw [wrapInt64_of_range _ (by omega) (by omega)]; ring
          have hlen : (after corpus M).length < (after corpus L).length :=
            after_length_lt corpus L M (by omega) hMmem
          obtain ⟨fuel, hfuel⟩ := ihm (after corpus M).length (by omega) M (le_refl _)
            (by omega) (Or.inr hMmem) (2 * M - M).toNat (2 * M) (calls + 1) (le_refl _)
            (by omega) (le_refl _)
          refine ⟨fuel + 1, ?_⟩
          have hl : ((after corpus S).take k).length ≠ 0 := by
            simpa [List.length_eq_zero] using hpne
          rw [countLoop, hfetch]
          simp only [hcount, hcur, if_neg hl, hw]
          exact hfuel

theorem foldl_max_ge (l : List Int) :
    ∀ (a : Int), a ≤ l.foldl max a ∧ ∀ i ∈ l, i ≤ l.foldl max a := by
  induction l with
  | nil => intro a; simp
  | cons x l ih =>
    intro a
    rw [List.foldl_cons]
    obtain ⟨h1, h2⟩ := ih (max a x)
    refine ⟨le_trans (le_max_left a x) h1, ?_⟩
    intro i hi
    rcases List.mem_cons.1 hi with h | h
    · rw [h]; exact le_trans (le_max_right a x) h1
    · exact h2 i h

theorem foldl_max_mem (l : List Int) :
    ∀ (a : Int), l.foldl max a = a ∨ l.foldl max a ∈ l := by
  induction l with
  | nil => intro a; simp
  | cons x l ih =>
    intro a
    rw [List.foldl_cons]
    rcases ih (max a x) with h | h
    · rcases max_choice a x with hm | hm
      · left; rw [h, hm]
      · right; rw [h, hm]; exact List.mem_cons_self _ _
    · right; exact List.mem_cons_of_mem _ h

theorem greatestId_spec (corpus : List Repository) (hpos : ∀ i ∈ ids corpus, 0 < i) :
    (∀ i ∈ ids corpus, i ≤ greatestId corpus)
      ∧ (ids corpus ≠ [] → greatestId corpus ∈ ids corpus) := by
  refine ⟨(foldl_max_ge (ids corpus) 0).2, ?_⟩
  intro hne
  rcases foldl_max_mem (ids corpus) 0 with h | h
  · obtain ⟨i, hi⟩ := List.exists_mem_of_ne_nil _ hne
    have h1 := (foldl_max_ge (ids corpus) 0).2 i hi
    have h2 := hpos i hi
    rw [h] at h1
    omega
  · exact h

/-- C1 (as stated) fails: the corpus whose only entry is the source with the positive
identifier `2^62` makes the doubled probe wrap to `-2^63`; the request since `-2^63`
lists the entry again, and the call never returns. -/
theorem bound_finder_overflow_counterexample :
    (∀ i ∈ ids [source (2 ^ 62)], 0 < i)
      ∧ ∀ fuel, DetermineRepositoryCount (pagedFetcher [source (2 ^ 62)] 1) fuel = none := by
  refine ⟨by decide, ?_⟩
  have hloop : ∀ fuel calls,
      countLoop (pagedFetcher [source (2 ^ 62)] 1) fuel calls (2 ^ 62) (-2 ^ 63) = none := by
    intro fuel
    induction fuel with
    | zero => intro calls; rfl
    | succ fuel ih => intro calls; exact ih (calls + 1)
  intro fuel
  cases fuel with
  | zero => rfl
  | succ fuel => exact hloop fuel 1

/-- C1 (amended): for every corpus of non-fork entries with positive identifiers whose
greatest identifier `iN` satisfies `3 * iN < 2^63` (the probes `2 * iN` and
`iN + 2 * iN` fit the 64-bit `int`), served by a faithful never-failing fetcher with
any page sizes `≥ 1`, `DetermineRepositoryCount` terminates and returns exactly `iN`
with no error; with no identifier at all it returns 0 after a single request. -/
theorem bound_finder_converges (corpus : List Repository) (ListAll : Fetcher)
    (hsrc : ∀ r ∈ corpus, r.Fork = some false)
    (hpos : ∀ i ∈ ids corpus, 0 < i ∧ 3 * i < 2 ^ 63)
    (hf : Faithful corpus ListAll) :
    (∃ N, ∀ fuel, N ≤ fuel →
        DetermineRepositoryCount ListAll fuel = some (.ret (greatestId corpus) none))
      ∧ (∀ i ∈ ids corpus, i ≤ greatestId corpus)
      ∧ (ids corpus ≠ [] → greatestId corpus ∈ ids corpus)
      ∧ (ids corpus = [] → DetermineRepositoryCount ListAll 1 = some (.ret 0 none)) := by
  have hspec := greatestId_spec corpus (fun i hi => (hpos i hi).1)
  refine ⟨?_, hspec.1, hspec.2, ?_⟩
  · obtain ⟨N, hN⟩ := countLoop_converges corpus ListAll hsrc hpos hf (after corpus 0).length
      0 (le_refl _) (le_refl _) (Or.inl rfl) 0 0 0 (by simp) (le_refl _) (by simp)
    exact ⟨N, fun fuel hfuel => countLoop_fuel_mono ListAll N fuel 0 0 0 _ hN hfuel⟩
  · intro hids
    obtain ⟨k, _, hfetch⟩ := hf 0 0
    have hnil : after corpus 0 = [] := by
      rw [List.eq_nil_iff_forall_not_mem]
      intro r hr
      obtain ⟨hrc, i, hi, _⟩ := mem_after.1 hr
      have : i ∈ ids corpus := mem_ids.2 ⟨r, hrc, hi⟩
      rw [hids] at this
      simp at this
    rw [hnil, List.take_nil] at hfetch
    rw [DetermineRepositoryCount, countLoop, hfetch]
    simp [countPage]

/-- Witness of C1 (amended): over the corpus 5, 12, 19, 27, 40 served in pages of two
the bound finder returns 40. -/
theorem bound_finder_converges_witness :
    (∃ N, ∀ fuel, N ≤ fuel →
        DetermineRepositoryCount (pagedFetcher ([5, 12, 19, 27, 40].map source) 2) fuel
          = some (.ret (greatestId ([5, 12, 19, 27, 40].map source)) none))
      ∧ greatestId ([5, 12, 19, 27, 40].map source) = 40 :=
  ⟨(bound_finder_converges ([5, 12, 19, 27, 40].map source)
      (pagedFetcher ([5, 12, 19, 27, 40].map source) 2)
      (fun r hr => (allSources_map_source _ r hr).1) (by decide)
      (pagedFetcher_faithful _ 2 (by decide))).1,
    by decide⟩

/-- C2 fails on the code: over the corpus (source 5, fork 12) the greatest non-fork
identifier is 5, but the call never returns: the page holding only the fork 12 is not
empty and leaves `sinceValue` unchanged, and the probes cycle 22, 16, 13, 12, 11. -/
theorem bound_finder_hangs_on_trailing_fork :
    greatestId ([source 5, forked 12].filter isSource) = 5
      ∧ ∀ fuel, DetermineRepositoryCount (pagedFetcher [source 5, forked 12] 2) fuel = none := by
  refine ⟨by decide, ?_⟩
  have hcycle : ∀ fuel calls,
      countLoop (pagedFetcher [source 5, forked 12] 2) fuel calls 11 22 = none
        ∧ countLoop (pagedFetcher [source 5, forked 12] 2) fuel calls 11 16 = none
        ∧ countLoop (pagedFetcher [source 5, forked 12] 2) fuel calls 11 13 = none
        ∧ countLoop (pagedFetcher [source 5, forked 12] 2) fuel calls 11 12 = none
        ∧ countLoop (pagedFetcher [source 5, forked 12] 2) fuel calls 11 11 = none
        ∧ countLoop (pagedFetcher [source 5, forked 12] 2) fuel calls 10 11 = none
        ∧ countLoop (pagedFetcher [source 5, forked 12] 2) fuel calls 10 12 = none
        ∧ countLoop (pagedFetcher [source 5, forked 12] 2) fuel calls 10 15 = none
        ∧ countLoop (pagedFetcher [source 5, forked 12] 2) fuel calls 10 20 = none
        ∧ countLoop (pagedFetcher [source 5, forked 12] 2) fuel calls 5 10 = none
        ∧ countLoop (pagedFetcher [source 5, forked 12] 2) fuel calls 0 0 = none := by
    intro fuel
    induction fuel with
    | zero => intro calls; exact ⟨rfl, rfl, rfl, rfl, rfl, rfl, rfl, rfl, rfl, rfl, rfl⟩
    | succ fuel ih =>
      intro calls
      obtain ⟨h1, h2, h3, h4, h5, h6, h7, h8, h9, h10, _⟩ := ih (calls + 1)
      exact ⟨h2, h3, h4, h5, h1, h1, h6, h7, h8, h9, h10⟩
  exact fun fuel => (hcycle fuel 0).2.2.2.2.2.2.2.2.2.2

/-! ## Provenance of the records of the page-number listings -/

theorem ownerPage_all (includeForks : Option Bool) (Q : GithubRepository → Prop)
    (page : List Repository) :
    ∀ (allRepos out : List GithubRepository),
      (∀ r ∈ allRepos, Q r) →
      (∀ e ∈ page, ∀ inc owner, includeForks = some inc → ownerKeeps inc e = true →
        e.Owner = some owner → Q (ownerRecord e owner)) →
      ownerPage includeForks page allRepos = some out → ∀ r ∈ out, Q r := by
  induction page with
  | nil =>
    intro allRepos out hacc _ h
    simp only [ownerPage, Option.some.injEq] at h
    rw [← h]; exact hacc
  | cons repo rest ih =>
    intro allRepos out hacc hpage h
    have hrest : ∀ e ∈ rest, ∀ inc owner, includeForks = some inc → ownerKeeps inc e = true →
        e.Owner = some owner → Q (ownerRecord e owner) :=
      fun e he => hpage e (List.mem_cons_of_mem _ he)
    unfold ownerPage at h
    cases hinc : includeForks with
    | none => simp [hinc] at h
    | some inc =>
      cases hf : repo.Fork with
      | none => simp [hinc, hf] at h
      | some fork =>
        simp only [hinc, hf] at h
        by_cases hc : ((inc && fork) || !fork) = true
        · rw [if_pos hc] at h
          cases ho : repo.Owner with
          | none => simp [ho] at h
          | some owner =>
            simp only [ho] at h
            refine ih _ out ?_ hrest (hinc ▸ h)
            intro r hr
            rcases List.mem_append.1 hr with h1 | h1
            · exact hacc r h1
            · rw [List.mem_singleton.1 h1]
              exact hpage repo (List.mem_cons_self _ _) inc owner hinc
                (by simp only [ownerKeeps, hf]; exact hc) ho
        · rw [if_neg hc] at h
          exact ih _ out hacc hrest (hinc ▸ h)

theorem orgPage_all (Q : GithubRepository → Prop) (page : List Repository) :
    ∀ (allRepos out : List GithubRepository),
      (∀ r ∈ allRepos, Q r) →
      (∀ e ∈ page, ∀ owner, e.Fork = some false → e.Owner = some owner →
        Q (orgRecord e owner)) →
      orgPage page allRepos = some out → ∀ r ∈ out, Q r := by
  induction page with
  | nil =>
    intro allRepos out hacc _ h
    simp only [orgPage, Option.some.injEq] at h
    rw [← h]; exact hacc
  | cons repo rest ih =>
    intro allRepos out hacc hpage h
    have hrest : ∀ e ∈ rest, ∀ owner, e.Fork = some false → e.Owner = some owner →
        Q (orgRecord e owner) := fun e he => hpage e (List.mem_cons_of_mem _ he)
    rw [orgPage] at h
    cases hf : repo.Fork with
    | none => simp [hf] at h
    | some fork =>
      cases fork with
      | true => simp only [hf] at h; exact ih _ out hacc hrest h
      | false =>
        simp only [hf] at h
        cases ho : repo.Owner with
        | none => simp [ho] at h
        | some owner =>
          simp only [ho] at h
          refine ih _ out ?_ hrest h
          intro r hr
          rcases List.mem_append.1 hr with h1 | h1
          · exact hacc r h1
          · rw [List.mem_singleton.1 h1]
            exact hpage repo (List.mem_cons_self _ _) owner hf ho

theorem pageNumberLoop_all {α β : Type} (pass : List α → List β → Option (List β))
    (list : Nat → Int → Except Error (List α × Int)) (Q : β → Prop)
    (hpass : ∀ calls page entries next, list calls page = .ok (entries, next) →
      ∀ acc out, (∀ r ∈ acc, Q r) → pass entries acc = some out → ∀ r ∈ out, Q r)
    (fuel : Nat) :
    ∀ (calls : Nat) (page : Int) (all : List β) (res : ListResult β) (out : List β)
      (err : Option Error),
      (∀ r ∈ all, Q r) →
      pageNumberLoop pass list fuel calls page all = some res →
      res.returned = some (out, err) → ∀ r ∈ out, Q r := by
  induction fuel with
  | zero => intro calls page all res out err _ h; simp [pageNumberLoop] at h
  | succ fuel ih =>
    intro calls page all res out err hacc h hret
    rw [pageNumberLoop] at h
    cases hfetch : list calls page with
    | error e =>
      simp only [hfetch, Option.some.injEq] at h
      subst h
      simp only [ListResult.returned, Option.some.injEq, Prod.mk.injEq] at hret
      rw [← hret.1]; exact hacc
    | ok answer =>
      obtain ⟨entries, next⟩ := answer
      simp only [hfetch] at h
      cases hp : pass entries all with
      | none =>
        simp only [hp, Option.some.injEq] at h
        subst h
        simp [ListResult.returned] at hret
      | some all1 =>
        have hall1 := hpass calls page entries next hfetch all all1 hacc hp
        simp only [hp] at h
        by_cases hn : next = 0
        · rw [if_pos hn] at h
          simp only [Option.some.injEq] at h
          subst h
          simp only [ListResult.returned, Option.some.injEq, Prod.mk.injEq] at hret
          rw [← hret.1]; exact hall1
        · rw [if_neg hn] at h
          exact ih _ _ _ res out err hall1 h hret

theorem GetRepositoriesFromOwner_all (login : Option String) (list : PageFetcher Repository)
    (includeForks : Option Bool) (Q : GithubRepository → Prop)
    (hQ : ∀ calls loginVal page entries next, list calls loginVal page = .ok (entries, next) →
      ∀ e ∈ entries, ∀ inc owner, includeForks = some inc → ownerKeeps inc e = true →
        e.Owner = some owner → Q (ownerRecord e owner))
    (fuel : Nat) (res : ListResult GithubRepository) (out : List GithubRepository)
    (err : Option Error)
    (hrun : GetRepositoriesFromOwner login list includeForks fuel = some res)
    (hret : res.returned = some (out, err)) : ∀ r ∈ out, Q r := by
  unfold GetRepositoriesFromOwner at hrun
  cases login with
  | none =>
    simp only [Option.some.injEq] at hrun
    subst hrun
    simp [ListResult.returned] at hret
  | some loginVal =>
    simp only at hrun
    refine pageNumberLoop_all (ownerPage includeForks) (list · loginVal) Q ?_ fuel 0 0 []
      res out err (by simp) hrun hret
    intro calls page entries next hfetch acc out1 hacc hp
    exact ownerPage_all includeForks Q entries acc out1 hacc
      (hQ calls loginVal page entries next hfetch) hp

theorem GetRepositoriesFromOrganization_all (login : Option String)
    (list : PageFetcher Repository) (Q : GithubRepository → Prop)
    (hQ : ∀ calls loginVal page entries next, list calls loginVal page = .ok (entries, next) →
      ∀ e ∈ entries, ∀ owner, e.Fork = some false → e.Owner = some owner →
        Q (orgRecord e owner))
    (fuel : Nat) (res : ListResult GithubRepository) (out : List GithubRepository)
    (err : Option Error)
    (hrun : GetRepositoriesFromOrganization login list fuel = some res)
    (hret : res.returned = some (out, err)) : ∀ r ∈ out, Q r := by
  unfold GetRepositoriesFromOrganization at hrun
  cases login with
  | none =>
    simp only [Option.some.injEq] at hrun
    subst hrun
    simp [ListResult.returned] at hret
  | some loginVal =>
    simp only at hrun
    refine pageNumberLoop_all orgPage (list · loginVal) Q ?_ fuel 0 0 []
      res out err (by simp) hrun hret
    intro calls page entries next hfetch acc out1 hacc hp
    exact orgPage_all Q entries acc out1 hacc (hQ calls loginVal page entries next hfetch) hp

theorem ownerPage_include_forks (page : List Repository) :
    ∀ (allRepos : List GithubRepository), (∀ e ∈ page, ownerDerefsOk true e = true) →
      ownerPage (some true) page allRepos
        = some (allRepos ++ page.filterMap (fun e => e.Owner.map (ownerRecord e))) := by
  induction page with
  | nil => intro allRepos _; simp [ownerPage]
  | cons repo rest ih =>
    intro allRepos h
    have hr := h repo (List.mem_cons_self _ _)
    have hrest : ∀ e ∈ rest, ownerDerefsOk true e = true :=
      fun e he => h e (List.mem_cons_of_mem _ he)
    unfold ownerDerefsOk at hr
    unfold ownerPage
    cases hf : repo.Fork with
    | none => simp [hf] at hr
    | some fork =>
      have hc : ((true && fork) || !fork) = true := by cases fork <;> rfl
      simp only [hf, hc, if_true] at hr
      cases ho : repo.Owner with
      | none => simp [ho] at hr
      | some owner =>
        simp only [hc, if_true]
        rw [ih _ hrest]
        simp [List.filterMap_cons, ho]

/-- C11 (as stated) fails: with `includeForks` pointing to `true`,
`GetRepositoriesFromOwner` returns a record built from a fork entry. -/
theorem owner_listing_includes_forks_counterexample :
    (forked 12).Fork = some true
      ∧ GetRepositoriesFromOwner (some "octocat") (servePages [([forked 12], 0)]) (some true) 1
        = some (.done [ownerRecord (forked 12) { Login := none }]) := by
  decide

/-- C11 (amended): no record returned by `GetAllRepositories` or by
`GetRepositoriesFromOrganization` is built from an entry whose fork flag is true, and
none returned by `GetRepositoriesFromOwner` is unless `includeForks` points to `true`;
with `includeForks` pointing to `true`, `GetRepositoriesFromOwner` builds a record from
every entry of a page, forks included. -/
theorem forks_excluded_unless_included (ListAll : Fetcher) (list : PageFetcher Repository)
    (login : Option String) (start end_ : Int) :
    (∀ (fuel : Nat) (res : ScanResult) (out : List GithubRepository) (err : Option Error),
        GetAllRepositories ListAll start end_ fuel = some res →
        res.returned = some (out, err) →
        ∀ r ∈ out, ∃ calls since page entry owner,
          ListAll calls since = .ok page ∧ entry ∈ page ∧ entry.Fork = some false
            ∧ entry.Owner = some owner ∧ r = allRecord entry owner)
      ∧ (∀ (fuel : Nat) (res : ListResult GithubRepository) (out : List GithubRepository)
          (err : Option Error),
          GetRepositoriesFromOrganization login list fuel = some res →
          res.returned = some (out, err) →
          ∀ r ∈ out, ∃ calls loginVal page entries next entry owner,
            list calls loginVal page = .ok (entries, next) ∧ entry ∈ entries
              ∧ entry.Fork = some false ∧ entry.Owner = some owner
              ∧ r = orgRecord entry owner)
      ∧ (∀ (includeForks : Option Bool) (fuel : Nat) (res : ListResult GithubRepository)
          (out : List GithubRepository) (err : Option Error),
          includeForks ≠ some true →
          GetRepositoriesFromOwner login list includeForks fuel = some res →
          res.returned = some (out, err) →
          ∀ r ∈ out, ∃ calls loginVal page entries next entry owner,
            list calls loginVal page = .ok (entries, next) ∧ entry ∈ entries
              ∧ entry.Fork = some false ∧ entry.Owner = some owner
              ∧ r = ownerRecord entry owner)
      ∧ ∀ (page : List Repository) (allRepos : List GithubRepository),
          (∀ e ∈ page, ownerDerefsOk true e = true) →
          ownerPage (some true) page allRepos
            = some (allRepos ++ page.filterMap (fun e => e.Owner.map (ownerRecord e))) := by
  refine ⟨?_, ?_, ?_, fun page allRepos h => ownerPage_include_forks page allRepos h⟩
  · intro fuel res out err hrun hret
    refine scanLoop_all ListAll end_ _ ?_ fuel 0 [] start res out err (by simp) hrun hret
    intro calls since page hfetch e he owner hf ho
    exact ⟨calls, since, page, e, owner, hfetch, he, hf, ho, rfl⟩
  · intro fuel res out err hrun hret
    refine GetRepositoriesFromOrganization_all login list _ ?_ fuel res out err hrun hret
    intro calls loginVal page entries next hfetch e he owner hf ho
    exact ⟨calls, loginVal, page, entries, next, e, owner, hfetch, he, hf, ho, rfl⟩
  · intro includeForks fuel res out err hinc hrun hret
    refine GetRepositoriesFromOwner_all login list includeForks _ ?_ fuel res out err hrun hret
    intro calls loginVal page entries next hfetch e he inc owner hi hk ho
    have hfalse : inc = false := by
      cases inc with
      | false => rfl
      | true => exact absurd hi hinc
    have hf : e.Fork = some false := by
      unfold ownerKeeps at hk
      cases hfk : e.Fork with
      | none => simp [hfk] at hk
      | some fork =>
        cases fork with
        | false => rfl
        | true => simp [hfk, hfalse] at hk
    exact ⟨calls, loginVal, page, entries, next, e, owner, hfetch, he, hf, ho, rfl⟩

/-- Witness of C11 (amended): over the page (source 5, fork 12) the organization
listing and the owner listing without forks return the record of 5 alone, built from
the entry that is not a fork. -/
theorem forks_excluded_unless_included_witness :
    (∀ r ∈ [orgRecord (source 5) { Login := none }],
        ∃ calls loginVal page entries next entry owner,
          servePages [([source 5, forked 12], 0)] calls loginVal page = .ok (entries, next)
            ∧ entry ∈ entries ∧ entry.Fork = some false ∧ entry.Owner = some owner
            ∧ r = orgRecord entry owner)
      ∧ ∀ r ∈ [ownerRecord (source 5) { Login := none }],
        ∃ calls loginVal page entries next entry owner,
          servePages [([source 5, forked 12], 0)] calls loginVal page = .ok (entries, next)
            ∧ entry ∈ entries ∧ entry.Fork = some false ∧ entry.Owner = some owner
            ∧ r = ownerRecord entry owner :=
  ⟨(forks_excluded_unless_included (pagedFetcher [] 1)
      (servePages [([source 5, forked 12], 0)]) (some "octocat") 0 0).2.1 1
      (.done [orgRecord (source 5) { Login := none }]) _ none (by decide) rfl,
    (forks_excluded_unless_included (pagedFetcher [] 1)
      (servePages [([source 5, forked 12], 0)]) (some "octocat") 0 0).2.2.1 (some false) 1
      (.done [ownerRecord (source 5) { Login := none }]) _ none (by decide) (by decide) rfl⟩

/-- C13: every record returned by `GetAllRepositories` has the default branch
`"master"`, whatever the default branch of the remote entry it is built from, and its
other fields are those of that entry (the owner being the login of the entry's owner,
the URL its HTML URL). -/
theorem scan_records_have_master_branch (ListAll : Fetcher) (start end_ : Int) (fuel : Nat)
    (res : ScanResult) (out : List GithubRepository) (err : Option Error)
    (hrun : GetAllRepositories ListAll start end_ fuel = some res)
    (hret : res.returned = some (out, err)) :
    ∀ r ∈ out, r.DefaultBranch = some "master"
      ∧ ∃ calls since page entry owner,
          ListAll calls since = .ok page ∧ entry ∈ page ∧ entry.Owner = some owner
            ∧ r.Owner = owner.Login ∧ r.ID = entry.ID ∧ r.Name = entry.Name
            ∧ r.FullName = entry.FullName ∧ r.CloneURL = entry.CloneURL
            ∧ r.URL = entry.HTMLURL ∧ r.Description = entry.Description
            ∧ r.Homepage = entry.Homepage := by
  refine scanLoop_all ListAll end_ _ ?_ fuel 0 [] start res out err (by simp) hrun hret
  intro calls since page hfetch e he owner _ ho
  exact ⟨rfl, calls, since, page, e, owner, hfetch, he, ho, rfl, rfl, rfl, rfl, rfl, rfl, rfl, rfl⟩

/-- Witness of C13: an entry whose default branch is `"main"` yields a record whose
default branch is `"master"`. -/
theorem scan_records_have_master_branch_witness :
    (allRecord { source 5 with DefaultBranch := some "main" } { Login := none }).DefaultBranch
        = some "master"
      ∧ ∃ calls since page entry owner,
          pagedFetcher [{ source 5 with DefaultBranch := some "main" }] 1 calls since = .ok page
            ∧ entry ∈ page ∧ entry.Owner = some owner
            ∧ (allRecord { source 5 with DefaultBranch := some "main" } { Login := none }).Owner
                = owner.Login
            ∧ (allRecord { source 5 with DefaultBranch := some "main" } { Login := none }).ID
                = entry.ID
            ∧ (allRecord { source 5 with DefaultBranch := some "main" } { Login := none }).Name
                = entry.Name
            ∧ (allRecord { source 5 with DefaultBranch := some "main" }
                { Login := none }).FullName = entry.FullName
            ∧ (allRecord { source 5 with DefaultBranch := some "main" }
                { Login := none }).CloneURL = entry.CloneURL
            ∧ (allRecord { source 5 with DefaultBranch := some "main" } { Login := none }).URL
                = entry.HTMLURL
            ∧ (allRecord { source 5 with DefaultBranch := some "main" }
                { Login := none }).Description = entry.Description
            ∧ (allRecord { source 5 with DefaultBranch := some "main" }
                { Login := none }).Homepage = entry.Homepage :=
  scan_records_have_master_branch
    (pagedFetcher [{ source 5 with DefaultBranch := some "main" }] 1) 0 5 1
    (.reachedEnd [allRecord { source 5 with DefaultBranch := some "main" } { Login := none }])
    _ none (by decide) rfl
    (allRecord { source 5 with DefaultBranch := some "main" } { Login := none })
    (List.mem_singleton.2 rfl)

/-- C19: every record returned by `GetRepositoriesFromOrganization` has as `CloneURL`
the SSH URL of the entry it is built from, every record returned by
`GetRepositoriesFromOwner` or `GetAllRepositories` the entry's clone URL; the records
the two per-owner listings build from an entry agree on every other field. -/
theorem clone_url_of_listings (ListAll : Fetcher) (list : PageFetcher Repository)
    (login : Option String) (start end_ : Int) :
    (∀ (fuel : Nat) (res : ListResult GithubRepository) (out : List GithubRepository)
        (err : Option Error),
        GetRepositoriesFromOrganization login list fuel = some res →
        res.returned = some (out, err) →
        ∀ r ∈ out, ∃ calls loginVal page entries next entry owner,
          list calls loginVal page = .ok (entries, next) ∧ entry ∈ entries
            ∧ r = orgRecord entry owner ∧ r.CloneURL = entry.SSHURL)
      ∧ (∀ (includeForks : Option Bool) (fuel : Nat) (res : ListResult GithubRepository)
          (out : List GithubRepository) (err : Option Error),
          GetRepositoriesFromOwner login list includeForks fuel = some res →
          res.returned = some (out, err) →
          ∀ r ∈ out, ∃ calls loginVal page entries next entry owner,
            list calls loginVal page = .ok (entries, next) ∧ entry ∈ entries
              ∧ r = ownerRecord entry owner ∧ r.CloneURL = entry.CloneURL)
      ∧ (∀ (fuel : Nat) (res : ScanResult) (out : List GithubRepository) (err : Option Error),
          GetAllRepositories ListAll start end_ fuel = some res →
          res.returned = some (out, err) →
          ∀ r ∈ out, ∃ calls since page entry owner,
            ListAll calls since = .ok page ∧ entry ∈ page
              ∧ r = allRecord entry owner ∧ r.CloneURL = entry.CloneURL)
      ∧ ∀ (repo : Repository) (owner : User),
          orgRecord repo owner = { ownerRecord repo owner with CloneURL := repo.SSHURL } := by
  refine ⟨?_, ?_, ?_, fun _ _ => rfl⟩
  · intro fuel res out err hrun hret
    refine GetRepositoriesFromOrganization_all login list _ ?_ fuel res out err hrun hret
    intro calls loginVal page entries next hfetch e he owner _ _
    exact ⟨calls, loginVal, page, entries, next, e, owner, hfetch, he, rfl, rfl⟩
  · intro includeForks fuel res out err hrun hret
    refine GetRepositoriesFromOwner_all login list includeForks _ ?_ fuel res out err hrun hret
    intro calls loginVal page entries next hfetch e he inc owner _ _ _
    exact ⟨calls, loginVal, page, entries, next, e, owner, hfetch, he, rfl, rfl⟩
  · intro fuel res out err hrun hret
    refine scanLoop_all ListAll end_ _ ?_ fuel 0 [] start res out err (by simp) hrun hret
    intro calls since page hfetch e he owner _ _
    exact ⟨calls, since, page, e, owner, hfetch, he, rfl, rfl⟩

/-- Witness of C19: for an entry with clone URL `"https"` and SSH URL `"ssh"`, the
organization listing returns a record with `CloneURL = "ssh"`, the owner listing one
with `CloneURL = "https"`. -/
theorem clone_url_of_listings_witness :
    (∀ r ∈ [orgRecord { source 5 with CloneURL := some "https", SSHURL := some "ssh" }
          { Login := none }],
        ∃ calls loginVal page entries next entry owner,
          servePages [([{ source 5 with CloneURL := some "https", SSHURL := some "ssh" }], 0)]
              calls loginVal page = .ok (entries, next)
            ∧ entry ∈ entries ∧ r = orgRecord entry owner ∧ r.CloneURL = entry.SSHURL)
      ∧ ∀ r ∈ [ownerRecord { source 5 with CloneURL := some "https", SSHURL := some "ssh" }
          { Login := none }],
        ∃ calls loginVal page entries next entry owner,
          servePages [([{ source 5 with CloneURL := some "https", SSHURL := some "ssh" }], 0)]
              calls loginVal page = .ok (entries, next)
            ∧ entry ∈ entries ∧ r = ownerRecord entry owner ∧ r.CloneURL = entry.CloneURL :=
  ⟨(clone_url_of_listings (pagedFetcher [] 1)
      (servePages [([{ source 5 with CloneURL := some "https", SSHURL := some "ssh" }], 0)])
      (some "octocat") 0 0).1 1
      (.done [orgRecord { source 5 with CloneURL := some "https", SSHURL := some "ssh" }
        { Login := none }]) _ none (by decide) rfl,
    (clone_url_of_listings (pagedFetcher [] 1)
      (servePages [([{ source 5 with CloneURL := some "https", SSHURL := some "ssh" }], 0)])
      (some "octocat") 0 0).2.1 (some false) 1
      (.done [ownerRecord { source 5 with CloneURL := some "https", SSHURL := some "ssh" }
        { Login := none }]) _ none (by decide) rfl⟩

/-! ## Termination of the page-number listings -/

theorem ownerPage_eq (inc : Bool) (page : List Repository) :
    ∀ (allRepos : List GithubRepository), (∀ e ∈ page, ownerDerefsOk inc e = true) →
      ownerPage (some inc) page allRepos = some (allRepos ++ ownerRecords inc page) := by
  induction page with
  | nil => intro allRepos _; simp [ownerPage, ownerRecords]
  | cons repo rest ih =>
    intro allRepos h
    have hr := h repo (List.mem_cons_self _ _)
    have hrest : ∀ e ∈ rest, ownerDerefsOk inc e = true :=
      fun e he => h e (List.mem_cons_of_mem _ he)
    unfold ownerDerefsOk at hr
    unfold ownerPage
    cases hf : repo.Fork with
    | none => simp [hf] at hr
    | some fork =>
      simp only [hf] at hr
      simp only
      by_cases hc : ((inc && fork) || !fork) = true
      · rw [if_pos hc] at hr ⊢
        have hk : ownerKeeps inc repo = true := by simp only [ownerKeeps, hf]; exact hc
        cases ho : repo.Owner with
        | none => simp [ho] at hr
        | some owner =>
          simp only
          rw [ih _ hrest]
          simp [ownerRecords, List.filter_cons, hk, List.filterMap_cons, ho]
      · rw [if_neg hc]
        have hk : ownerKeeps inc repo = false := by
          simp only [ownerKeeps, hf]; simpa using hc
        rw [ih _ hrest]
        simp [ownerRecords, List.filter_cons, hk]

theorem orgPage_eq (page : List Repository) :
    ∀ (allRepos : List GithubRepository), (∀ e ∈ page, orgDerefsOk e = true) →
      orgPage page allRepos = some (allRepos ++ orgRecords page) := by
  induction page with
  | nil => intro allRepos _; simp [orgPage, orgRecords]
  | cons repo rest ih =>
    intro allRepos h
    have hr := h repo (List.mem_cons_self _ _)
    have hrest : ∀ e ∈ rest, orgDerefsOk e = true := fun e he => h e (List.mem_cons_of_mem _ he)
    unfold orgDerefsOk at hr
    unfold orgPage
    cases hf : repo.Fork with
    | none => simp [hf] at hr
    | some fork =>
      cases fork with
      | true =>
        simp only
        rw [ih _ hrest]
        simp [orgRecords, List.filter_cons, isSource, hf]
      | false =>
        simp only [hf] at hr
        cases ho : repo.Owner with
        | none => simp [ho] at hr
        | some owner =>
          simp only
          rw [ih _ hrest]
          simp [orgRecords, List.filter_cons, isSource, hf, List.filterMap_cons, ho]

theorem memberPage_eq (page : List User) :
    ∀ (allMembers : List GithubOwner),
      memberPage page allMembers = some (allMembers ++ page.map memberRecord) := by
  induction page with
  | nil => intro allMembers; simp [memberPage]
  | cons member rest ih => intro allMembers; rw [memberPage, ih]; simp

theorem pageNumberLoop_until_last {α β : Type} (pass : List α → List β → Option (List β))
    (recs : List α → List β) (list : Nat → Int → Except Error (List α × Int))
    (last : List α) (hlast : ∀ acc, pass last acc = some (acc ++ recs last))
    (pre : List (List α × Int)) :
    ∀ (calls : Nat) (page : Int) (all : List β),
      (∀ p ∈ pre, p.2 ≠ 0) →
      (∀ p ∈ pre, ∀ acc, pass p.1 acc = some (acc ++ recs p.1)) →
      (∀ k p, (pre ++ [(last, 0)])[k]? = some p →
        list (calls + k) (pageArg page pre k) = .ok p) →
      (∀ fuel, fuel ≤ pre.length → pageNumberLoop pass list fuel calls page all = none)
        ∧ ∀ fuel, pre.length < fuel →
          pageNumberLoop pass list fuel calls page all
            = some (.done (all ++ ((pre.map (fun p => p.1) ++ [last]).map recs).flatten)) := by
  induction pre with
  | nil =>
    intro calls page all _ _ hfetch
    have h0 : list calls page = .ok (last, 0) := by
      simpa [pageArg] using hfetch 0 (last, 0) (by simp)
    refine ⟨?_, ?_⟩
    · intro fuel hfuel
      obtain rfl : fuel = 0 := by simpa using hfuel
      rfl
    · intro fuel hfuel
      obtain ⟨f, rfl⟩ : ∃ f, fuel = f + 1 := ⟨fuel - 1, by simp at hfuel; omega⟩
      rw [pageNumberLoop, h0]
      simp [hlast]
  | cons p ps ih =>
    intro calls page all hnext hpass hfetch
    obtain ⟨entries, next⟩ := p
    have h0 : list calls page = .ok (entries, next) := by
      simpa [pageArg] using hfetch 0 (entries, next) (by simp)
    have hn : next ≠ 0 := hnext (entries, next) (List.mem_cons_self _ _)
    have hp : pass entries all = some (all ++ recs entries) :=
      hpass (entries, next) (List.mem_cons_self _ _) all
    have hrec := ih (calls + 1) next (all ++ recs entries)
      (fun q hq => hnext q (List.mem_cons_of_mem _ hq))
      (fun q hq => hpass q (List.mem_cons_of_mem _ hq))
      (by
        intro k q hq
        have := hfetch (k + 1) q (by simpa using hq)
        rw [show calls + 1 + k = calls + (k + 1) by omega]
        cases k with
        | zero => simpa [pageArg] using this
        | succ k => simpa [pageArg] using this)
    refine ⟨?_, ?_⟩
    · intro fuel hfuel
      cases fuel with
      | zero => rfl
      | succ f =>
        rw [pageNumberLoop, h0]
        simp only [hp, if_neg hn]
        exact hrec.1 f (by simp at hfuel; omega)
    · intro fuel hfuel
      obtain ⟨f, rfl⟩ : ∃ f, fuel = f + 1 := ⟨fuel - 1, by simp at hfuel; omega⟩
      rw [pageNumberLoop, h0]
      simp only [hp, if_neg hn]
      rw [hrec.2 f (by simp at hfuel; omega)]
      simp

theorem servePages_spec {α : Type} (pages : List (List α × Int)) (k : Nat) (login : String)
    (page : Int) (p : List α × Int) (h : pages[k]? = some p) :
    servePages pages k login page = .ok p := by
  simp [servePages, h]

/-- C12: for every never-failing sequence of pages whose first `NextPage` equal to 0 is
that of the page `last`, each of `GetRepositoriesFromOwner`,
`GetRepositoriesFromOrganization` and `GetOrganizationMembers` is still running after
every request before the one answered by `last` (also after a page without entries
whose `NextPage` is not 0), stops with that request, and returns without error the
concatenation, in order, of the records of all these pages (filtered as the listing
filters them). -/
theorem listings_stop_on_next_page_zero (loginVal : String) :
    (∀ (list : PageFetcher Repository) (inc : Bool) (pre : List (List Repository × Int))
        (last : List Repository),
        (∀ p ∈ pre, p.2 ≠ 0) →
        (∀ p ∈ pre, ∀ e ∈ p.1, ownerDerefsOk inc e = true) →
        (∀ e ∈ last, ownerDerefsOk inc e = true) →
        (∀ k p, (pre ++ [(last, 0)])[k]? = some p →
          list k loginVal (pageArg 0 pre k) = .ok p) →
        (∀ fuel, fuel ≤ pre.length →
            GetRepositoriesFromOwner (some loginVal) list (some inc) fuel = none)
          ∧ ∀ fuel, pre.length < fuel →
            GetRepositoriesFromOwner (some loginVal) list (some inc) fuel
              = some (.done
                  ((pre.map (fun p => p.1) ++ [last]).map (ownerRecords inc)).flatten))
      ∧ (∀ (list : PageFetcher Repository) (pre : List (List Repository × Int))
          (last : List Repository),
          (∀ p ∈ pre, p.2 ≠ 0) →
          (∀ p ∈ pre, ∀ e ∈ p.1, orgDerefsOk e = true) →
          (∀ e ∈ last, orgDerefsOk e = true) →
          (∀ k p, (pre ++ [(last, 0)])[k]? = some p →
            list k loginVal (pageArg 0 pre k) = .ok p) →
          (∀ fuel, fuel ≤ pre.length →
              GetRepositoriesFromOrganization (some loginVal) list fuel = none)
            ∧ ∀ fuel, pre.length < fuel →
              GetRepositoriesFromOrganization (some loginVal) list fuel
                = some (.done ((pre.map (fun p => p.1) ++ [last]).map orgRecords).flatten))
      ∧ ∀ (list : PageFetcher User) (pre : List (List User × Int)) (last : List User),
          (∀ p ∈ pre, p.2 ≠ 0) →
          (∀ k p, (pre ++ [(last, 0)])[k]? = some p →
            list k loginVal (pageArg 0 pre k) = .ok p) →
          (∀ fuel, fuel ≤ pre.length →
              GetOrganizationMembers (some loginVal) list fuel = none)
            ∧ ∀ fuel, pre.length < fuel →
              GetOrganizationMembers (some loginVal) list fuel
                = some (.done
                    ((pre.map (fun p => p.1) ++ [last]).map (List.map memberRecord)).flatten) := by
  refine ⟨?_, ?_, ?_⟩
  · intro list inc pre last hnext hpre hlast hfetch
    have h := pageNumberLoop_until_last (ownerPage (some inc)) (ownerRecords inc)
      (list · loginVal) last (fun acc => ownerPage_eq inc last acc hlast) pre 0 0 [] hnext
      (fun p hp acc => ownerPage_eq inc p.1 acc (hpre p hp))
      (by intro k p hk; simpa using hfetch k p hk)
    simpa [GetRepositoriesFromOwner] using h
  · intro list pre last hnext hpre hlast hfetch
    have h := pageNumberLoop_until_last orgPage orgRecords
      (list · loginVal) last (fun acc => orgPage_eq last acc hlast) pre 0 0 [] hnext
      (fun p hp acc => orgPage_eq p.1 acc (hpre p hp))
      (by intro k p hk; simpa using hfetch k p hk)
    simpa [GetRepositoriesFromOrganization] using h
  · intro list pre last hnext hfetch
    have h := pageNumberLoop_until_last memberPage (List.map memberRecord)
      (list · loginVal) last (fun acc => memberPage_eq last acc) pre 0 0 [] hnext
      (fun p _ acc => memberPage_eq p.1 acc)
      (by intro k p hk; simpa using hfetch k p hk)
    simpa [GetOrganizationMembers] using h

/-- Witness of C12: the pages (source 5 with next page 2), (no entry, next page 3) and
(source 12, next page 0): the owner listing is still running after two requests and
returns the records of 5 and 12 with the third. -/
theorem listings_stop_on_next_page_zero_witness :
    GetRepositoriesFromOwner (some "octocat")
        (servePages [([source 5], 2), ([], 3), ([source 12], 0)]) (some false) 2 = none
      ∧ GetRepositoriesFromOwner (some "octocat")
        (servePages [([source 5], 2), ([], 3), ([source 12], 0)]) (some false) 3
        = some (.done [ownerRecord (source 5) { Login := none },
            ownerRecord (source 12) { Login := none }]) :=
  ⟨((listings_stop_on_next_page_zero "octocat").1
      (servePages [([source 5], 2), ([], 3), ([source 12], 0)]) false
      [([source 5], 2), ([], 3)] [source 12] (by decide) (by decide) (by decide)
      (fun k p hk => servePages_spec _ k "octocat" _ p hk)).1 2 (by decide),
    ((listings_stop_on_next_page_zero "octocat").1
      (servePages [([source 5], 2), ([], 3), ([source 12], 0)]) false
      [([source 5], 2), ([], 3)] [source 12] (by decide) (by decide) (by decide)
      (fun k p hk => servePages_spec _ k "octocat" _ p hk)).2 3 (by decide)⟩

/-! ## The scan up to the first identifier reaching `end` -/

theorem throughEnd_sublist (end_ : Int) (l : List Repository) :
    List.Sublist (throughEnd end_ l) l := by
  induction l with
  | nil => exact List.Sublist.slnil
  | cons r rest ih =>
    unfold throughEnd
    split
    · simp
    · exact ih.cons₂ r

theorem one_id_above_end (end_ : Int) (l : List Repository) :
    (∀ r ∈ l, r.ID.isSome = true) → end_ ∉ ids l → (∃ i ∈ ids l, end_ < i) →
    ((ids (throughEnd end_ l)).filter (fun i => decide (end_ < i))).length = 1 := by
  induction l with
  | nil => intro _ _ h; obtain ⟨i, hi, _⟩ := h; simp [ids] at hi
  | cons r rest ih =>
    intro hall hnot hex
    obtain ⟨i, hi⟩ := Option.isSome_iff_exists.1 (hall r (List.mem_cons_self _ _))
    rw [ids_cons_some _ _ _ hi] at hnot hex
    have hne : end_ ≠ i := fun h => hnot (h ▸ List.mem_cons_self _ _)
    have hnot1 : end_ ∉ ids rest := fun h => hnot (List.mem_cons_of_mem _ h)
    by_cases hge : end_ ≤ i
    · have hr : reachesEnd end_ r = true := by simp [reachesEnd, hi, hge]
      have hlt : end_ < i := lt_of_le_of_ne hge hne
      have hids1 : ids [r] = [i] := ids_cons_some r [] i hi
      simp [throughEnd, hr, hids1, hlt]
    · have hr : reachesEnd end_ r = false := by simp [reachesEnd, hi, hge]
      have hex1 : ∃ j ∈ ids rest, end_ < j := by
        obtain ⟨j, hj, hlt⟩ := hex
        rcases List.mem_cons.1 hj with h | h
        · rw [h] at hlt; omega
        · exact ⟨j, h, hlt⟩
      have hih := ih (fun e he => hall e (List.mem_cons_of_mem _ he)) hnot1 hex1
      have hni : ¬ end_ < i := by omega
      simp only [throughEnd, hr, Bool.false_eq_true, if_false, ids_cons_some _ _ _ hi,
        List.filter_cons, decide_eq_true_eq, hni]
      exact hih

/-- C16 (as stated) fails: over 5, 12, 19, 27, 40 with `start = 40` and `end = 20`,
`end` is not an identifier of the corpus and greater identifiers exist (27 and 40), yet
the scan returns the empty sequence through the empty-page exit: no returned identifier
exceeds `end`, and the result holds no identifier although `end ≤ start`. -/
theorem scan_past_corpus_counterexample :
    (20 : Int) ∉ ids ([5, 12, 19, 27, 40].map source)
      ∧ (27 : Int) ∈ ids ([5, 12, 19, 27, 40].map source) ∧ (20 : Int) < 27
      ∧ (20 : Int) ≤ 40
      ∧ GetAllRepositories (pagedFetcher ([5, 12, 19, 27, 40].map source) 2) 40 20 6
        = some (.exhausted [])
      ∧ ((recordIds ([] : List GithubRepository)).filter (fun i => decide ((20 : Int) < i))).length
        ≠ 1 := by
  decide

/-- C16 (amended): for every corpus of non-fork entries sorted by identifier, served
by a faithful never-failing fetcher, and every `start` and `end`, `GetAllRepositories`
returns without error exactly the records of the entries with identifier greater than
`start`, in order, up to and including the first one whose identifier is at least
`end` (all of them, through the empty-page exit, when there is none).  Hence, when
`end` is not an identifier of the corpus and an identifier greater than both `start`
and `end` exists, exactly one returned identifier exceeds `end`; and when
`end ≤ start` and an entry after `start` exists, the result is the first such entry
alone. -/
theorem scan_through_first_reaching_end (corpus : List Repository) (ListAll : Fetcher)
    (start end_ : Int) (hsrc : AllSources corpus) (hasc : Ascending corpus)
    (hf : Faithful corpus ListAll) :
    (∀ fuel, corpus.length < fuel →
        GetAllRepositories ListAll start end_ fuel
          = some (if (after corpus start).any (reachesEnd end_) then
              .reachedEnd (recordsOf (throughEnd end_ (after corpus start)))
            else .exhausted (recordsOf (throughEnd end_ (after corpus start)))))
      ∧ recordIds (recordsOf (throughEnd end_ (after corpus start)))
          = ids (throughEnd end_ (after corpus start))
      ∧ ids (after corpus start) = (ids corpus).filter (fun i => decide (start < i))
      ∧ (end_ ∉ ids corpus → (∃ i ∈ ids corpus, start < i ∧ end_ < i) →
          ((recordIds (recordsOf (throughEnd end_ (after corpus start)))).filter
            (fun i => decide (end_ < i))).length = 1)
      ∧ (end_ ≤ start → ∀ r rest, after corpus start = r :: rest →
          throughEnd end_ (after corpus start) = [r]) := by
  have hsub : AllSources (throughEnd end_ (after corpus start)) :=
    fun r hr => hsrc r (mem_after.1 ((throughEnd_sublist end_ _).subset hr)).1
  have hids := recordIds_recordsOf _ hsub
  refine ⟨?_, hids, ids_after corpus start, ?_, ?_⟩
  · intro fuel hfuel
    have hlen : (after corpus start).length < fuel :=
      lt_of_le_of_lt (List.length_filter_le _ _) hfuel
    have h := scanLoop_sorted_corpus corpus ListAll end_ hsrc hasc hf fuel 0 [] start hlen
    by_cases hany : (after corpus start).any (reachesEnd end_) = true
    · rw [if_pos hany] at h ⊢
      simpa [GetAllRepositories] using h
    · rw [if_neg hany] at h ⊢
      rw [throughEnd_of_not_any end_ _ (by simpa using hany)]
      simpa [GetAllRepositories] using h
  · intro hnot hex
    rw [hids]
    apply one_id_above_end end_ (after corpus start)
    · intro r hr
      obtain ⟨_, i, hi, _⟩ := mem_after.1 hr
      simp [hi]
    · intro hmem
      obtain ⟨r, hr, hid⟩ := mem_ids.1 hmem
      exact hnot (mem_ids.2 ⟨r, (mem_after.1 hr).1, hid⟩)
    · obtain ⟨i, hi, hsi, hei⟩ := hex
      obtain ⟨r, hr, hid⟩ := mem_ids.1 hi
      exact ⟨i, mem_ids.2 ⟨r, mem_after.2 ⟨hr, i, hid, hsi⟩, hid⟩, hei⟩
  · intro hle r rest hl
    have hr : r ∈ after corpus start := by rw [hl]; exact List.mem_cons_self _ _
    obtain ⟨_, i, hi, hsi⟩ := mem_after.1 hr
    have hre : reachesEnd end_ r = true := by
      have : end_ ≤ i := by omega
      simp [reachesEnd, hi, this]
    rw [hl]
    simp [throughEnd, hre]

/-- Witness of C16: over 5, 12, 19, 27, 40 with `start = 0` and `end = 20` the scan
returns 5, 12, 19, 27 (one identifier above 20); with `start = 12` and `end = 3` it
returns 19 alone. -/
theorem scan_through_first_reaching_end_witness :
    GetAllRepositories (pagedFetcher ([5, 12, 19, 27, 40].map source) 2) 0 20 6
        = some (.reachedEnd (recordsOf ([5, 12, 19, 27].map source)))
      ∧ GetAllRepositories (pagedFetcher ([5, 12, 19, 27, 40].map source) 2) 12 3 6
        = some (.reachedEnd (recordsOf ([19].map source))) :=
  ⟨(scan_through_first_reaching_end ([5, 12, 19, 27, 40].map source)
      (pagedFetcher ([5, 12, 19, 27, 40].map source) 2) 0 20 (allSources_map_source _)
      ⟨by decide, by decide⟩ (pagedFetcher_faithful _ 2 (by decide))).1 6 (by decide),
    (scan_through_first_reaching_end ([5, 12, 19, 27, 40].map source)
      (pagedFetcher ([5, 12, 19, 27, 40].map source) 2) 12 3 (allSources_map_source _)
      ⟨by decide, by decide⟩ (pagedFetcher_faithful _ 2 (by decide))).1 6 (by decide)⟩

/-! ## A page that holds only forks -/

theorem scanPage_only_forks (end_ : Int) (page : List Repository)
    (hforks : ∀ e ∈ page, e.Fork = some true) :
    ∀ (allRepos : List GithubRepository) (sinceValue : Int),
      scanPage end_ page allRepos sinceValue = .next allRepos sinceValue := by
  induction page with
  | nil => intro allRepos sinceValue; rfl
  | cons repo rest ih =>
    intro allRepos sinceValue
    rw [scanPage_fork _ _ _ _ _ (hforks repo (List.mem_cons_self _ _))]
    exact ih (fun e he => hforks e (List.mem_cons_of_mem _ he)) _ _

/-- C17: a page of `GetAllRepositories` that is not empty but holds only fork entries
leaves the result and the cursor unchanged; when the fetcher answers the request
"since `sinceValue`" with such a page every time, the scan issues that request for
ever: whatever the number of requests allowed, no result is produced. -/
theorem scan_never_ends_on_fork_only_page (ListAll : Fetcher) (end_ sinceValue : Int)
    (page : List Repository) (hdet : ∀ calls, ListAll calls sinceValue = .ok page)
    (hne : page ≠ []) (hforks : ∀ e ∈ page, e.Fork = some true) :
    (∀ allRepos, scanPage end_ page allRepos sinceValue = .next allRepos sinceValue)
      ∧ ∀ fuel calls allRepos, scanLoop ListAll end_ fuel calls allRepos sinceValue = none := by
  refine ⟨fun allRepos => scanPage_only_forks end_ page hforks allRepos sinceValue, ?_⟩
  intro fuel
  induction fuel with
  | zero => intro calls allRepos; rfl
  | succ fuel ih =>
    intro calls allRepos
    have hl : page.length ≠ 0 := by simpa [List.length_eq_zero] using hne
    rw [scanLoop, hdet calls]
    simp only [scanPage_only_forks end_ page hforks allRepos sinceValue, if_neg hl]
    exact ih (calls + 1) allRepos

/-- Witness of C17: over the corpus (source 5, fork 12) with `start = 0` and
`end = 1000`, the request since 5 is answered by the page holding the fork 12 alone,
and the scan yields no result whatever the number of requests. -/
theorem scan_never_ends_on_fork_only_page_witness :
    scanPage 1000 [forked 12] [allRecord (source 5) { Login := none }] 5
        = .next [allRecord (source 5) { Login := none }] 5
      ∧ ∀ fuel, GetAllRepositories (pagedFetcher [source 5, forked 12] 2) 0 1000 fuel = none := by
  refine ⟨(scan_never_ends_on_fork_only_page (pagedFetcher [source 5, forked 12] 2) 1000 5
    [forked 12] (fun _ => rfl) (by decide) (by decide)).1 _, ?_⟩
  intro fuel
  cases fuel with
  | zero => rfl
  | succ fuel =>
    exact (scan_never_ends_on_fork_only_page (pagedFetcher [source 5, forked 12] 2) 1000 5
      [forked 12] (fun _ => rfl) (by decide) (by decide)).2 fuel 1
      [allRecord (source 5) { Login := none }]

/-! ## What the bound finder can return -/

theorem cursorAfter_cons_not_source (since : Int) (repo : Repository) (rest : List Repository)
    (h : isSource repo = false) : cursorAfter since (repo :: rest) = cursorAfter since rest := by
  simp [cursorAfter, h]

theorem cursorAfter_mem (page : List Repository)
    (hid : ∀ e ∈ page, e.ID.isSome = true) :
    ∀ (since : Int), cursorAfter since page = since
      ∨ cursorAfter since page ∈ ids (page.filter isSource) := by
  induction page with
  | nil => intro since; left; rfl
  | cons e rest ih =>
    intro since
    have hrest : ∀ x ∈ rest, x.ID.isSome = true := fun x hx => hid x (List.mem_cons_of_mem _ hx)
    cases hs : isSource e with
    | false =>
      rw [cursorAfter_cons_not_source _ _ _ hs, List.filter_cons]
      simp only [hs, Bool.false_eq_true, if_false]
      exact ih hrest since
    | true =>
      obtain ⟨i, hi⟩ := Option.isSome_iff_exists.1 (hid e (List.mem_cons_self _ _))
      have hf : e.Fork = some false := by simpa [isSource] using hs
      rw [cursorAfter_cons_source _ _ _ _ hf hi, List.filter_cons]
      simp only [hs, if_true]
      rw [ids_cons_some _ _ _ hi]
      right
      rcases ih hrest i with h | h
      · rw [h]; exact List.mem_cons_self _ _
      · exact List.mem_cons_of_mem _ h

theorem served_page_facts (corpus : List Repository) (hflag : ∀ r ∈ corpus, r.Fork.isSome = true)
    (since : Int) (k : Nat) :
    (∀ e ∈ (after corpus since).take k, countDerefsOk e = true)
      ∧ (∀ e ∈ (after corpus since).take k, e.ID.isSome = true)
      ∧ (∀ i ∈ ids ((after corpus since).take k), i ∈ ids corpus ∧ since < i)
      ∧ ∀ i ∈ ids (((after corpus since).take k).filter isSource),
          i ∈ ids (corpus.filter isSource) ∧ since < i := by
  refine ⟨?_, ?_, ?_, ?_⟩
  · intro e he
    obtain ⟨hec, i, hi, _⟩ := mem_after.1 (List.mem_of_mem_take he)
    obtain ⟨f, hf⟩ := Option.isSome_iff_exists.1 (hflag e hec)
    cases f <;> simp [countDerefsOk, hf, hi]
  · intro e he
    obtain ⟨_, i, hi, _⟩ := mem_after.1 (List.mem_of_mem_take he)
    simp [hi]
  · intro i hi
    obtain ⟨e, he, hei⟩ := mem_ids.1 hi
    obtain ⟨hec, j, hj, hlt⟩ := mem_after.1 (List.mem_of_mem_take he)
    rw [hei] at hj; cases hj
    exact ⟨mem_ids.2 ⟨e, hec, hei⟩, hlt⟩
  · intro i hi
    obtain ⟨e, he, hei⟩ := mem_ids.1 hi
    obtain ⟨het, hes⟩ := List.mem_filter.1 he
    obtain ⟨hec, j, hj, hlt⟩ := mem_after.1 (List.mem_of_mem_take het)
    rw [hei] at hj; cases hj
    exact ⟨mem_ids.2 ⟨e, List.mem_filter.2 ⟨hec, hes⟩, hei⟩, hlt⟩

theorem take_eq_nil_of_pos {α : Type} (l : List α) (k : Nat) (hk : 1 ≤ k)
    (h : l.take k = []) : l = [] := by
  rcases List.take_eq_nil_iff.1 h with h | h
  · omega
  · exact h

theorem countLoop_returns_committed (corpus : List Repository) (ListAll : Fetcher)
    (hflag : ∀ r ∈ corpus, r.Fork.isSome = true) (hf : Faithful corpus ListAll) (fuel : Nat) :
    ∀ (calls : Nat) (L S : Int) (res : CountResult),
      (L = 0 ∨ L ∈ ids (corpus.filter isSource) ∨ after corpus L ≠ []) →
      countLoop ListAll fuel calls L S = some res →
      ∃ b, res = .ret b none ∧ after corpus b = []
        ∧ (b = 0 ∨ b ∈ ids (corpus.filter isSource)) := by
  induction fuel with
  | zero => intro calls L S res _ h; simp [countLoop] at h
  | succ fuel ih =>
    intro calls L S res hJ h
    obtain ⟨k, hk, hfetch⟩ := hf calls S
    obtain ⟨hderef, hid, _, hsrc⟩ := served_page_facts corpus hflag S k
    rw [countLoop, hfetch] at h
    simp only [countPage_eq_cursorAfter _ S hderef] at h
    by_cases hl : ((after corpus S).take k).length = 0
    · have hpnil : (after corpus S).take k = [] := List.length_eq_zero.1 hl
      have hnil : after corpus S = [] := take_eq_nil_of_pos _ k hk hpnil
      rw [if_pos hl, hpnil] at h
      simp only [cursorAfter, List.foldl_nil] at h
      by_cases hSL : S = L
      · rw [if_pos hSL] at h
        simp only [Option.some.injEq] at h
        refine ⟨S, h.symm, hnil, ?_⟩
        rcases hJ with h0 | hmem | hnon
        · left; rw [hSL, h0]
        · right; rw [hSL]; exact hmem
        · exact absurd (hSL ▸ hnil) hnon
      · rw [if_neg hSL] at h
        exact ih _ _ _ res hJ h
    · rw [if_neg hl] at h
      refine ih _ _ _ res ?_ h
      rcases cursorAfter_mem _ hid S with hc | hc
      · right; right
        rw [hc]
        intro hnil
        rw [hnil] at hl
        simp at hl
      · right; left
        exact (hsrc _ hc).1

theorem ascending_id_unique (corpus : List Repository) (hsorted : (ids corpus).Pairwise (· < ·)) :
    ∀ (r f : Repository) (b : Int), r ∈ corpus → f ∈ corpus → r.ID = some b → f.ID = some b →
      r = f := by
  induction corpus with
  | nil => intro r f b hr; simp at hr
  | cons x xs ih =>
    intro r f b hr hf hrb hfb
    have htail : (ids xs).Pairwise (· < ·) := by
      cases hx : x.ID with
      | none => simpa [ids, List.filterMap_cons, hx] using hsorted
      | some j => rw [ids_cons_some _ _ _ hx] at hsorted; exact (List.pairwise_cons.1 hsorted).2
    have hhead : ∀ y ∈ xs, x.ID = some b → y.ID = some b → False := by
      intro y hy hxb hyb
      rw [ids_cons_some _ _ _ hxb] at hsorted
      have := (List.pairwise_cons.1 hsorted).1 b (mem_ids.2 ⟨y, hy, hyb⟩)
      omega
    rcases List.mem_cons.1 hr with h1 | h1 <;> rcases List.mem_cons.1 hf with h2 | h2
    · rw [h1, h2]
    · exact absurd (hhead f h2 (h1 ▸ hrb) hfb) id
    · exact absurd (hhead r h1 (h2 ▸ hfb) hrb) id
    · exact ih htail r f b h1 h2 hrb hfb

/-- C18: for every corpus with positive identifiers, forks allowed, sorted by
identifier and served by a faithful never-failing fetcher: whenever
`DetermineRepositoryCount` returns a bound `b`, it does so without error, the request
"since `b`" is answered by the empty page (no entry of the corpus, fork or not, has an
identifier greater than `b`), and `b` is 0 with the corpus empty or the identifier of
an entry that is not a fork.  Hence the call never returns when the greatest
identifier of the corpus belongs to a fork. -/
theorem bound_is_last_and_not_a_fork (corpus : List Repository) (ListAll : Fetcher)
    (hflag : ∀ r ∈ corpus, r.Fork.isSome = true) (hpos : ∀ i ∈ ids corpus, 0 < i)
    (hasc : Ascending corpus) (hf : Faithful corpus ListAll) :
    (∀ fuel res, DetermineRepositoryCount ListAll fuel = some res →
        ∃ b, res = .ret b none ∧ (∀ calls, ListAll calls b = .ok []) ∧ after corpus b = []
          ∧ ((b = 0 ∧ corpus = []) ∨ b ∈ ids (corpus.filter isSource)))
      ∧ ((∃ f ∈ corpus, f.Fork = some true ∧ ∃ j, f.ID = some j ∧ ∀ i ∈ ids corpus, i ≤ j) →
          ∀ fuel, DetermineRepositoryCount ListAll fuel = none) := by
  have hmain : ∀ fuel res, DetermineRepositoryCount ListAll fuel = some res →
      ∃ b, res = .ret b none ∧ (∀ calls, ListAll calls b = .ok []) ∧ after corpus b = []
        ∧ ((b = 0 ∧ corpus = []) ∨ b ∈ ids (corpus.filter isSource)) := by
    intro fuel res hrun
    obtain ⟨b, hres, hnil, hb⟩ :=
      countLoop_returns_committed corpus ListAll hflag hf fuel 0 0 0 res (Or.inl rfl) hrun
    refine ⟨b, hres, ?_, hnil, ?_⟩
    · intro calls
      obtain ⟨k, _, hfetch⟩ := hf calls b
      rw [hfetch, hnil, List.take_nil]
    · rcases hb with h0 | hmem
      · left
        refine ⟨h0, ?_⟩
        rw [List.eq_nil_iff_forall_not_mem]
        intro r hr
        obtain ⟨i, hi⟩ := Option.isSome_iff_exists.1 (hasc.1 r hr)
        have hi0 := hpos i (mem_ids.2 ⟨r, hr, hi⟩)
        have : r ∈ after corpus b := mem_after.2 ⟨hr, i, hi, by omega⟩
        rw [hnil] at this
        simp at this
      · right; exact hmem
  refine ⟨hmain, ?_⟩
  rintro ⟨f, hfc, hfork, j, hj, hmax⟩ fuel
  cases hrun : DetermineRepositoryCount ListAll fuel with
  | none => rfl
  | some res =>
    exfalso
    obtain ⟨b, _, _, hnil, hb⟩ := hmain fuel res hrun
    rcases hb with ⟨_, hempty⟩ | hmem
    · rw [hempty] at hfc; simp at hfc
    · obtain ⟨r, hr, hrb⟩ := mem_ids.1 hmem
      obtain ⟨hrc, hrs⟩ := List.mem_filter.1 hr
      have hbj : b ≤ j := hmax b (mem_ids.2 ⟨r, hrc, hrb⟩)
      have hjb : j ≤ b := by
        by_contra hlt
        have : f ∈ after corpus b := mem_after.2 ⟨hfc, j, hj, not_le.1 hlt⟩
        rw [hnil] at this
        simp at this
      have hbeq : b = j := le_antisymm hbj hjb
      have hrf : r = f := ascending_id_unique corpus hasc.2 r f b hrc hfc hrb (hbeq ▸ hj)
      rw [hrf, isSource, hfork] at hrs
      simp at hrs

/-- Witness of C18: over the corpus (source 5, fork 12), whose greatest identifier
belongs to a fork, the bound finder never returns; over (fork 5, source 12) it returns
12, the identifier of the entry that is not a fork. -/
theorem bound_is_last_and_not_a_fork_witness :
    (∀ fuel, DetermineRepositoryCount (pagedFetcher [source 5, forked 12] 2) fuel = none)
      ∧ ∃ b, CountResult.ret 12 none = .ret b none
          ∧ (∀ calls, pagedFetcher [forked 5, source 12] 2 calls b = .ok [])
          ∧ after [forked 5, source 12] b = []
          ∧ ((b = 0 ∧ [forked 5, source 12] = [])
            ∨ b ∈ ids ([forked 5, source 12].filter isSource)) :=
  ⟨(bound_is_last_and_not_a_fork [source 5, forked 12]
      (pagedFetcher [source 5, forked 12] 2) (by decide) (by decide)
      ⟨by decide, by decide⟩ (pagedFetcher_faithful _ 2 (by decide))).2
      ⟨forked 12, by decide, rfl, 12, rfl, by decide⟩,
    (bound_is_last_and_not_a_fork [forked 5, source 12]
      (pagedFetcher [forked 5, source 12] 2) (by decide) (by decide)
      ⟨by decide, by decide⟩ (pagedFetcher_faithful _ 2 (by decide))).1 10
      (.ret 12 none) (by decide)⟩

/-! ## The probes of the bound finder -/

theorem countLoop_succ (ListAll : Fetcher) (fuel calls : Nat) (L S : Int) :
    countLoop ListAll (fuel + 1) calls L S
      = match countStep ListAll calls L S with
        | .done res => some res
        | .next L1 S1 => countLoop ListAll fuel (calls + 1) L1 S1 := by
  rw [countLoop, countStep]
  cases ListAll calls S with
  | error e => rfl
  | ok repos =>
    simp only
    cases countPage repos S with
    | none => rfl
    | some s =>
      simp only
      by_cases hl : repos.length = 0
      · rw [if_pos hl, if_pos hl]
        by_cases hs : s = L
        · rw [if_pos hs, if_pos hs]
        · rw [if_neg hs, if_neg hs]
      · rw [if_neg hl, if_neg hl]

theorem countState_run (ListAll : Fetcher) (k : Nat) :
    ∀ (L S : Int), countState ListAll k = some (L, S) →
      ∀ fuel, DetermineRepositoryCount ListAll (k + fuel) = countLoop ListAll fuel k L S := by
  induction k with
  | zero =>
    intro L S h fuel
    simp only [countState, Option.some.injEq, Prod.mk.injEq] at h
    rw [← h.1, ← h.2, Nat.zero_add]
    rfl
  | succ k ih =>
    intro L S h fuel
    rw [countState] at h
    cases hk : countState ListAll k with
    | none => simp [hk] at h
    | some st =>
      obtain ⟨L0, S0⟩ := st
      simp only [hk] at h
      cases hstep : countStep ListAll k L0 S0 with
      | done res => simp [hstep] at h
      | next L1 S1 =>
        simp only [hstep, Option.some.injEq, Prod.mk.injEq] at h
        rw [show k + 1 + fuel = k + (fuel + 1) by omega, ih L0 S0 hk (fuel + 1),
          countLoop_succ, hstep, h.1, h.2]

theorem countStep_on_corpus (corpus : List Repository) (ListAll : Fetcher)
    (hflag : ∀ r ∈ corpus, r.Fork.isSome = true) (hf : Faithful corpus ListAll)
    (calls : Nat) (L S : Int) :
    ∃ k, 1 ≤ k ∧ ListAll calls S = .ok ((after corpus S).take k)
      ∧ countStep ListAll calls L S
        = if ((after corpus S).take k).length = 0 then
            if S = L then .done (.ret S none)
            else .next L (Int.tdiv (wrapInt64 (L + S)) 2)
          else .next (cursorAfter S ((after corpus S).take k))
            (wrapInt64 (cursorAfter S ((after corpus S).take k) * 2)) := by
  obtain ⟨k, hk, hfetch⟩ := hf calls S
  refine ⟨k, hk, hfetch, ?_⟩
  rw [countStep, hfetch]
  simp only [countPage_eq_cursorAfter _ S (served_page_facts corpus hflag S k).1]
  by_cases hl : ((after corpus S).take k).length = 0
  · rw [if_pos hl, if_pos hl, List.length_eq_zero.1 hl]
    rfl
  · rw [if_neg hl, if_neg hl]

/-- The states reached over a corpus of positive identifiers small enough for the
probes not to wrap: `0 ≤ lastValue ≤ sinceValue ≤ 2 * lastValue`, and `lastValue` is
0 or at most some identifier of the corpus. -/
theorem countState_bounds (corpus : List Repository) (ListAll : Fetcher)
    (hflag : ∀ r ∈ corpus, r.Fork.isSome = true)
    (hpos : ∀ i ∈ ids corpus, 0 < i ∧ 3 * i < 2 ^ 63)
    (hf : Faithful corpus ListAll) (k : Nat) :
    ∀ (L S : Int), countState ListAll k = some (L, S) →
      0 ≤ L ∧ L ≤ S ∧ S ≤ 2 * L ∧ 3 * L < 2 ^ 63 := by
  induction k with
  | zero =>
    intro L S h
    simp only [countState, Option.some.injEq, Prod.mk.injEq] at h
    rw [← h.1, ← h.2]
    norm_num
  | succ k ih =>
    intro L S h
    rw [countState] at h
    cases hk : countState ListAll k with
    | none => simp [hk] at h
    | some st =>
      obtain ⟨L0, S0⟩ := st
      obtain ⟨h0, hLS, hS2, hL3⟩ := ih L0 S0 hk
      obtain ⟨n, hn, _, hstep⟩ := countStep_on_corpus corpus ListAll hflag hf k L0 S0
      simp only [hk, hstep] at h
      by_cases hl : ((after corpus S0).take n).length = 0
      · rw [if_pos hl] at h
        by_cases hSL : S0 = L0
        · simp [hSL] at h
        · rw [if_neg hSL] at h
          simp only [Option.some.injEq, Prod.mk.injEq] at h
          have hw : wrapInt64 (L0 + S0) = L0 + S0 := wrapInt64_of_range _ (by omega) (by omega)
          have hdiv : Int.tdiv (L0 + S0) 2 = (L0 + S0) / 2 :=
            Int.tdiv_eq_ediv (by omega) (by decide)
          rw [hw, hdiv] at h
          rw [← h.1, ← h.2]
          omega
      · rw [if_neg hl] at h
        simp only [Option.some.injEq, Prod.mk.injEq] at h
        obtain ⟨_, hid, hall, hsrc⟩ := served_page_facts corpus hflag S0 n
        have hne : (after corpus S0).take n ≠ [] := by
          intro hnil; rw [hnil] at hl; simp at hl
        obtain ⟨e, he⟩ := List.exists_mem_of_ne_nil _ hne
        obtain ⟨j, hj⟩ := Option.isSome_iff_exists.1 (hid e he)
        obtain ⟨hjc, hSj⟩ := hall j (mem_ids.2 ⟨e, he, hj⟩)
        have hcur : S0 ≤ cursorAfter S0 ((after corpus S0).take n)
            ∧ 3 * cursorAfter S0 ((after corpus S0).take n) < 2 ^ 63 := by
          rcases cursorAfter_mem _ hid S0 with hc | hc
          · rw [hc]
            have := (hpos j hjc).2
            omega
          · obtain ⟨hmc, hSm⟩ := hsrc _ hc
            have hmc1 : cursorAfter S0 ((after corpus S0).take n) ∈ ids corpus := by
              obtain ⟨r, hr, hrid⟩ := mem_ids.1 hmc
              exact mem_ids.2 ⟨r, (List.mem_filter.1 hr).1, hrid⟩
            exact ⟨le_of_lt hSm, (hpos _ hmc1).2⟩
        have hw : wrapInt64 (cursorAfter S0 ((after corpus S0).take n) * 2)
            = 2 * cursorAfter S0 ((after corpus S0).take n) := by
          rw [wrapInt64_of_range _ (by omega) (by omega)]; ring
        rw [hw] at h
        rw [← h.1, ← h.2]
        omega

/-- C14 (as stated) fails: over the one-entry corpus (source 1) the second request
(since 2) is answered by the empty page with committed value 1, and the bisection probe
`(1 + 2) / 2 = 1` is not greater than the committed value. -/
theorem bisection_probe_counterexample :
    countState (pagedFetcher [source 1] 1) 1 = some (1, 2)
      ∧ pagedFetcher [source 1] 1 1 2 = .ok []
      ∧ countStep (pagedFetcher [source 1] 1) 1 1 2 = .next 1 ((1 + 2) / 2)
      ∧ ¬ ((1 : Int) < (1 + 2) / 2) :=
  ⟨by decide, by rfl, by decide, by decide⟩

/-- C14 (amended): in a run of `DetermineRepositoryCount` over a corpus of positive
identifiers `i` with `3 * i < 2^63` served by a faithful never-failing fetcher, every
bisection probe, computed when request number `k` (issued with committed value `L`
and probe `S ≠ L`) is answered by the empty page, is `(L + S) / 2` and satisfies
`L ≤ (L + S) / 2 < S`, with `L < S`. -/
theorem bisection_probe_between (corpus : List Repository) (ListAll : Fetcher)
    (hflag : ∀ r ∈ corpus, r.Fork.isSome = true)
    (hpos : ∀ i ∈ ids corpus, 0 < i ∧ 3 * i < 2 ^ 63)
    (hf : Faithful corpus ListAll) (k : Nat) (L S : Int)
    (hstate : countState ListAll k = some (L, S))
    (hempty : ListAll k S = .ok []) (hne : S ≠ L) :
    (∀ fuel, DetermineRepositoryCount ListAll (k + fuel) = countLoop ListAll fuel k L S)
      ∧ countStep ListAll k L S = .next L ((L + S) / 2)
      ∧ L < S ∧ L ≤ (L + S) / 2 ∧ (L + S) / 2 < S := by
  obtain ⟨h0, hLS, hS2, hL3⟩ := countState_bounds corpus ListAll hflag hpos hf k L S hstate
  have hlt : L < S := lt_of_le_of_ne hLS (Ne.symm hne)
  have hw : wrapInt64 (L + S) = L + S := wrapInt64_of_range _ (by omega) (by omega)
  have hdiv : Int.tdiv (L + S) 2 = (L + S) / 2 := Int.tdiv_eq_ediv (by omega) (by decide)
  refine ⟨countState_run ListAll k L S hstate, ?_, hlt, by omega, by omega⟩
  rw [countStep, hempty]
  simp only [countPage, List.length_nil, if_true, if_neg hne, hw, hdiv]

/-- Witness of C14 (amended): over 5, 12, 19, 27, 40 in pages of two, the third request
(since 80, committed 40) is answered by the empty page and the bisection probe is 60. -/
theorem bisection_probe_between_witness :
    countStep (pagedFetcher ([5, 12, 19, 27, 40].map source) 2) 2 40 80 = .next 40 ((40 + 80) / 2)
      ∧ (40 : Int) < 80 ∧ (40 : Int) ≤ (40 + 80) / 2 ∧ ((40 : Int) + 80) / 2 < 80 :=
  (bisection_probe_between ([5, 12, 19, 27, 40].map source)
    (pagedFetcher ([5, 12, 19, 27, 40].map source) 2) (by decide) (by decide)
    (pagedFetcher_faithful _ 2 (by decide)) 2 40 80 (by decide) (by rfl) (by decide)).2

theorem cursorAfter_eq_getLast (page : List Repository)
    (hid : ∀ e ∈ page, e.ID.isSome = true) :
    ∀ (since : Int),
      cursorAfter since page = ((ids (page.filter isSource)).getLast?).getD since := by
  induction page with
  | nil => intro since; rfl
  | cons e rest ih =>
    intro since
    have hrest : ∀ x ∈ rest, x.ID.isSome = true := fun x hx => hid x (List.mem_cons_of_mem _ hx)
    cases hs : isSource e with
    | false =>
      rw [cursorAfter_cons_not_source _ _ _ hs, List.filter_cons]
      simp only [hs, Bool.false_eq_true, if_false]
      exact ih hrest since
    | true =>
      obtain ⟨i, hi⟩ := Option.isSome_iff_exists.1 (hid e (List.mem_cons_self _ _))
      have hf : e.Fork = some false := by simpa [isSource] using hs
      rw [cursorAfter_cons_source _ _ _ _ hf hi, List.filter_cons]
      simp only [hs, if_true]
      rw [ids_cons_some _ _ _ hi, List.getLast?_cons, ih hrest i]
      rfl

/-- C15 (as stated) fails: over the one-entry corpus (source `2^62`), a positive
identifier, the first batch is not empty and commits `2^62`, but the next probe is
`-2^63`, the wrapped double, which is neither twice the committed value nor greater
than the previous committed value 0. -/
theorem doubling_overflow_counterexample :
    countState (pagedFetcher [source (2 ^ 62)] 1) 0 = some (0, 0)
      ∧ pagedFetcher [source (2 ^ 62)] 1 0 0 = .ok [source (2 ^ 62)]
      ∧ countStep (pagedFetcher [source (2 ^ 62)] 1) 0 0 0 = .next (2 ^ 62) (-2 ^ 63)
      ∧ (-2 ^ 63 : Int) ≠ 2 * 2 ^ 62 ∧ ¬ ((0 : Int) < -2 ^ 63) :=
  ⟨by decide, by rfl, by decide, by decide, by decide⟩

/-- C15 (amended): in a run of `DetermineRepositoryCount` over a corpus of positive
identifiers `i` with `3 * i < 2^63` served by a faithful never-failing fetcher, after
every batch that holds an entry which is not a fork (request number `k`, issued with
committed value `L` and probe `S`) the new committed value is the identifier `M` of
the last such entry of the batch, the next probe is exactly `2 * M`, and that probe is
greater than the previous committed value `L`. -/
theorem doubling_after_batch (corpus : List Repository) (ListAll : Fetcher)
    (hflag : ∀ r ∈ corpus, r.Fork.isSome = true)
    (hpos : ∀ i ∈ ids corpus, 0 < i ∧ 3 * i < 2 ^ 63)
    (hf : Faithful corpus ListAll) (k : Nat) (L S : Int) (page : List Repository)
    (hstate : countState ListAll k = some (L, S))
    (hpage : ListAll k S = .ok page) (hsrc : ∃ e ∈ page, e.Fork = some false) :
    (∀ fuel, DetermineRepositoryCount ListAll (k + fuel) = countLoop ListAll fuel k L S)
      ∧ ∃ M, (ids (page.filter isSource)).getLast? = some M
          ∧ countStep ListAll k L S = .next M (2 * M) ∧ L < 2 * M := by
  obtain ⟨h0, hLS, hS2, hL3⟩ := countState_bounds corpus ListAll hflag hpos hf k L S hstate
  refine ⟨countState_run ListAll k L S hstate, ?_⟩
  obtain ⟨n, hn, hfetch, hstep⟩ := countStep_on_corpus corpus ListAll hflag hf k L S
  have hpeq : page = (after corpus S).take n := by
    rw [hfetch] at hpage; cases hpage; rfl
  rw [← hpeq] at hstep
  obtain ⟨_, hid, _, hsrcs⟩ := served_page_facts corpus hflag S n
  rw [← hpeq] at hid hsrcs
  obtain ⟨e, he, hef⟩ := hsrc
  obtain ⟨j, hj⟩ := Option.isSome_iff_exists.1 (hid e he)
  have hjmem : j ∈ ids (page.filter isSource) :=
    mem_ids.2 ⟨e, List.mem_filter.2 ⟨he, by simp [isSource, hef]⟩, hj⟩
  have hne : ids (page.filter isSource) ≠ [] := List.ne_nil_of_mem hjmem
  obtain ⟨M, hM⟩ : ∃ M, (ids (page.filter isSource)).getLast? = some M := by
    cases hlast : (ids (page.filter isSource)).getLast? with
    | none => exact absurd (List.getLast?_eq_none_iff.1 hlast) hne
    | some M => exact ⟨M, rfl⟩
  have hcur : cursorAfter S page = M := by
    rw [cursorAfter_eq_getLast page hid S, hM]; rfl
  have hMmem : M ∈ ids (page.filter isSource) := List.mem_of_getLast?_eq_some hM
  obtain ⟨hMc, hSM⟩ := hsrcs M hMmem
  have hMc1 : M ∈ ids corpus := by
    obtain ⟨r, hr, hrid⟩ := mem_ids.1 hMc
    exact mem_ids.2 ⟨r, (List.mem_filter.1 hr).1, hrid⟩
  obtain ⟨hM0, hM3⟩ := hpos M hMc1
  have hw : wrapInt64 (M * 2) = 2 * M := by
    rw [wrapInt64_of_range _ (by omega) (by omega)]; ring
  have hl : page.length ≠ 0 := by
    intro hz; rw [List.length_eq_zero.1 hz] at he; simp at he
  refine ⟨M, hM, ?_, by omega⟩
  rw [hstep, if_neg hl, hcur, hw]

/-- Witness of C15 (amended): over 5, 12, 19, 27, 40 in pages of two, the second
request (since 24, committed 12) is answered by the batch 27, 40: the new committed
value is 40 and the next probe 80. -/
theorem doubling_after_batch_witness :
    ∃ M, (ids ([source 27, source 40].filter isSource)).getLast? = some M
      ∧ countStep (pagedFetcher ([5, 12, 19, 27, 40].map source) 2) 1 12 24 = .next M (2 * M)
      ∧ (12 : Int) < 2 * M :=
  (doubling_after_batch ([5, 12, 19, 27, 40].map source)
    (pagedFetcher ([5, 12, 19, 27, 40].map source) 2) (by decide) (by decide)
    (pagedFetcher_faithful _ 2 (by decide)) 1 12 24 [source 27, source 40] (by decide)
    (by rfl) ⟨source 27, by decide, rfl⟩).2

/-! ## Fetch errors of the bound finder at the cursor of the request -/

theorem countState_succ (ListAll : Fetcher) (k : Nat) (L S L1 S1 : Int)
    (h : countState ListAll k = some (L, S)) (hstep : countStep ListAll k L S = .next L1 S1) :
    countState ListAll (k + 1) = some (L1, S1) := by
  rw [countState]
  simp only [h, hstep]

theorem countState_running (ListAll : Fetcher) (k : Nat) :
    DetermineRepositoryCount ListAll k = none ↔ ∃ L S, countState ListAll k = some (L, S) := by
  constructor
  · induction k with
    | zero => intro _; exact ⟨0, 0, rfl⟩
    | succ k ih =>
      intro hrun
      have hk : DetermineRepositoryCount ListAll k = none := by
        cases hr : DetermineRepositoryCount ListAll k with
        | none => rfl
        | some res =>
          have := countLoop_fuel_succ ListAll k 0 0 0 res hr
          rw [DetermineRepositoryCount] at hrun
          rw [hrun] at this
          cases this
      obtain ⟨L, S, hstate⟩ := ih hk
      have hrun1 := countState_run ListAll k L S hstate 1
      rw [hrun, countLoop_succ] at hrun1
      cases hstep : countStep ListAll k L S with
      | done res => rw [hstep] at hrun1; cases hrun1
      | next L1 S1 => exact ⟨L1, S1, countState_succ ListAll k L S L1 S1 hstate hstep⟩
  · rintro ⟨L, S, hstate⟩
    have := countState_run ListAll k L S hstate 0
    rw [Nat.add_zero] at this
    rw [this]
    rfl

theorem countStep_error (ListAll : Fetcher) (calls : Nat) (L S b : Int) (err : Error)
    (h : countStep ListAll calls L S = .done (.ret b (some err))) :
    b = -1 ∧ ListAll calls S = .error err := by
  rw [countStep] at h
  cases hfetch : ListAll calls S with
  | error e =>
    simp only [hfetch, CountStep.done.injEq, CountResult.ret.injEq, Option.some.injEq] at h
    exact ⟨h.1.symm, by rw [h.2]⟩
  | ok repos =>
    simp only [hfetch] at h
    cases hc : countPage repos S with
    | none => simp [hc] at h
    | some s =>
      simp only [hc] at h
      by_cases hl : repos.length = 0
      · rw [if_pos hl] at h
        by_cases hs : s = L
        · rw [if_pos hs] at h; simp at h
        · rw [if_neg hs] at h; cases h
      · rw [if_neg hl] at h; cases h

theorem countLoop_error_origin (ListAll : Fetcher) (fuel : Nat) :
    ∀ (calls : Nat) (L S b : Int) (err : Error),
      countState ListAll calls = some (L, S) →
      countLoop ListAll fuel calls L S = some (.ret b (some err)) →
      b = -1 ∧ ∃ k L1 S1, k < calls + fuel ∧ countState ListAll k = some (L1, S1)
        ∧ ListAll k S1 = .error err := by
  induction fuel with
  | zero => intro calls L S b err _ h; simp [countLoop] at h
  | succ fuel ih =>
    intro calls L S b err hstate h
    rw [countLoop_succ] at h
    cases hstep : countStep ListAll calls L S with
    | done res =>
      rw [hstep] at h
      simp only [Option.some.injEq] at h
      rw [h] at hstep
      obtain ⟨hb, hfail⟩ := countStep_error ListAll calls L S b err hstep
      exact ⟨hb, calls, L, S, by omega, hstate, hfail⟩
    | next L1 S1 =>
      rw [hstep] at h
      obtain ⟨hb, k, L2, S2, hk, hst, hfail⟩ :=
        ih (calls + 1) L1 S1 b err (countState_succ ListAll calls L S L1 S1 hstate hstep) h
      exact ⟨hb, k, L2, S2, by omega, hst, hfail⟩

/-- C9: whatever number `k` of probes of `DetermineRepositoryCount` went through before
(request number `k + 1` is issued, with committed value `L` and probe `S`), if that
request, the one the code sends with `Since = S`, fails with `err`, the call returns
`err` with the bound `-1`, whatever `L` and `S` are.  The call is still running after
`k` requests exactly when request `k + 1` is issued; and every error the call returns
is the error of a request it issued and comes with the bound `-1`. -/
theorem bound_finder_error_is_minus_one (ListAll : Fetcher) :
    (∀ (k : Nat) (L S : Int) (err : Error), countState ListAll k = some (L, S) →
        ListAll k S = .error err →
        ∀ fuel, k < fuel →
          DetermineRepositoryCount ListAll fuel = some (.ret (-1) (some err)))
      ∧ (∀ k, DetermineRepositoryCount ListAll k = none
          ↔ ∃ L S, countState ListAll k = some (L, S))
      ∧ ∀ (fuel : Nat) (bound : Int) (err : Error),
          DetermineRepositoryCount ListAll fuel = some (.ret bound (some err)) →
          bound = -1 ∧ ∃ k L S, k < fuel ∧ countState ListAll k = some (L, S)
            ∧ ListAll k S = .error err := by
  refine ⟨?_, countState_running ListAll, ?_⟩
  · intro k L S err hstate hfail fuel hfuel
    obtain ⟨f, rfl⟩ : ∃ f, fuel = k + (f + 1) := ⟨fuel - k - 1, by omega⟩
    rw [countState_run ListAll k L S hstate (f + 1), countLoop, hfail]
  · intro fuel bound err h
    obtain ⟨hb, k, L, S, hk, hst, hfail⟩ :=
      countLoop_error_origin ListAll fuel 0 0 0 bound err rfl h
    exact ⟨hb, k, L, S, by omega, hst, hfail⟩

/-- Witness of C9: over the corpus 5, 12, 19, 27, 40 in pages of two, with a fetcher
that fails only for the cursor 24, the second request is issued with committed value
12 and probe 24, and the call returns `(-1, err)`. -/
theorem bound_finder_error_is_minus_one_witness :
    countState (failingAt 24 "boom" ([5, 12, 19, 27, 40].map source) 2) 1 = some (12, 24)
      ∧ DetermineRepositoryCount (failingAt 24 "boom" ([5, 12, 19, 27, 40].map source) 2) 2
        = some (.ret (-1) (some "boom")) :=
  ⟨by decide,
    (bound_finder_error_is_minus_one
      (failingAt 24 "boom" ([5, 12, 19, 27, 40].map source) 2)).1 1 12 24 "boom"
      (by decide) (by rfl) 2 (by decide)⟩

/-! ## Where the range loops die on a nil pointer -/

theorem scanPage_append (end_ : Int) (pre rest : List Repository) :
    ∀ (allRepos : List GithubRepository) (sinceValue : Int),
      scanPage end_ (pre ++ rest) allRepos sinceValue
        = match scanPage end_ pre allRepos sinceValue with
          | .next a s => scanPage end_ rest a s
          | .reached a => .reached a
          | .nilDeref => .nilDeref := by
  induction pre with
  | nil => intro allRepos sinceValue; rfl
  | cons repo pre ih =>
    intro allRepos sinceValue
    rw [List.cons_append, scanPage, scanPage]
    cases repo.Fork with
    | none => rfl
    | some f =>
      cases f with
      | true => exact ih _ _
      | false =>
        cases repo.Owner with
        | none => rfl
        | some owner =>
          cases repo.ID with
          | none => rfl
          | some id =>
            simp only
            split
            · rfl
            · exact ih _ _

theorem scanPage_bad_head (end_ : Int) (e : Repository) (rest : List Repository)
    (allRepos : List GithubRepository) (sinceValue : Int) (h : scanDerefsOk e = false) :
    scanPage end_ (e :: rest) allRepos sinceValue = .nilDeref := by
  unfold scanDerefsOk at h
  rw [scanPage]
  cases hf : e.Fork with
  | none => rfl
  | some f =>
    cases f with
    | true => simp [hf] at h
    | false =>
      simp only [hf] at h
      cases ho : e.Owner with
      | none => rfl
      | some owner =>
        cases hi : e.ID with
        | none => rfl
        | some id => simp [ho, hi] at h

theorem countPage_none_of_bad (page : List Repository) :
    ∀ (sinceValue : Int), (∃ e ∈ page, countDerefsOk e = false) →
      countPage page sinceValue = none := by
  induction page with
  | nil => intro _ h; obtain ⟨e, he, _⟩ := h; simp at he
  | cons repo rest ih =>
    intro sinceValue h
    by_cases hr : countDerefsOk repo = true
    · have hrest : ∃ e ∈ rest, countDerefsOk e = false := by
        obtain ⟨e, he, hbad⟩ := h
        rcases List.mem_cons.1 he with h1 | h1
        · rw [h1, hr] at hbad; cases hbad
        · exact ⟨e, h1, hbad⟩
      unfold countDerefsOk at hr
      rw [countPage]
      cases hf : repo.Fork with
      | none => rfl
      | some f =>
        cases f with
        | true => exact ih _ hrest
        | false =>
          cases hi : repo.ID with
          | none => rfl
          | some id => exact ih _ hrest
    · unfold countDerefsOk at hr
      rw [countPage]
      cases hf : repo.Fork with
      | none => rfl
      | some f =>
        cases f with
        | true => simp [hf] at hr
        | false =>
          cases hi : repo.ID with
          | none => rfl
          | some id => simp [hf, hi] at hr

theorem ownerPage_none_of_bad (inc : Bool) (page : List Repository) :
    ∀ (allRepos : List GithubRepository), (∃ e ∈ page, ownerDerefsOk inc e = false) →
      ownerPage (some inc) page allRepos = none := by
  induction page with
  | nil => intro _ h; obtain ⟨e, he, _⟩ := h; simp at he
  | cons repo rest ih =>
    intro allRepos h
    unfold ownerPage
    cases hf : repo.Fork with
    | none => rfl
    | some fork =>
      simp only
      have hrest : ownerDerefsOk inc repo = true → ∃ e ∈ rest, ownerDerefsOk inc e = false := by
        intro hr
        obtain ⟨e, he, hbad⟩ := h
        rcases List.mem_cons.1 he with h1 | h1
        · rw [h1, hr] at hbad; cases hbad
        · exact ⟨e, h1, hbad⟩
      by_cases hc : ((inc && fork) || !fork) = true
      · rw [if_pos hc]
        cases ho : repo.Owner with
        | none => rfl
        | some owner =>
          exact ih _ (hrest (by simp only [ownerDerefsOk, hf, if_pos hc, ho]; rfl))
      · rw [if_neg hc]
        exact ih _ (hrest (by simp only [ownerDerefsOk, hf, if_neg hc]))

theorem ownerPage_nil_include (page : List Repository) (allRepos : List GithubRepository) :
    (ownerPage none page allRepos).isSome = true ↔ page = [] := by
  cases page with
  | nil => simp [ownerPage]
  | cons repo rest => simp [ownerPage]

theorem orgPage_none_of_bad (page : List Repository) :
    ∀ (allRepos : List GithubRepository), (∃ e ∈ page, orgDerefsOk e = false) →
      orgPage page allRepos = none := by
  induction page with
  | nil => intro _ h; obtain ⟨e, he, _⟩ := h; simp at he
  | cons repo rest ih =>
    intro allRepos h
    have hrest : orgDerefsOk repo = true → ∃ e ∈ rest, orgDerefsOk e = false := by
      intro hr
      obtain ⟨e, he, hbad⟩ := h
      rcases List.mem_cons.1 he with h1 | h1
      · rw [h1, hr] at hbad; cases hbad
      · exact ⟨e, h1, hbad⟩
    rw [orgPage]
    cases hf : repo.Fork with
    | none => rfl
    | some f =>
      cases f with
      | true => exact ih _ (hrest (by simp [orgDerefsOk, hf]))
      | false =>
        cases ho : repo.Owner with
        | none => rfl
        | some owner => exact ih _ (hrest (by simp [orgDerefsOk, hf, ho]))

theorem exists_bad_of_not_all {α : Type} (p : α → Bool) (l : List α)
    (h : ¬ ∀ e ∈ l, p e = true) : ∃ e ∈ l, p e = false := by
  by_contra hno
  apply h
  intro e he
  cases hp : p e with
  | true => rfl
  | false => exact absurd ⟨e, he, hp⟩ hno

/-- C10 (amended): the range loops of `GetAllRepositories`, `DetermineRepositoryCount`,
`GetRepositoriesFromOwner` and `GetRepositoriesFromOrganization` run over a page
without a nil dereference when every entry has the pointers the loop dereferences set
(the fork flag, for an entry that yields a record its owner and, in the two identifier
scans, the identifier of an entry that is not a fork).  For `DetermineRepositoryCount`
and the two per-owner listings this condition is also necessary, and
`GetRepositoriesFromOwner` with a nil `includeForks` completes on the page without
entries only.  The loop of `GetAllRepositories` dies when it reaches an entry lacking
such a pointer, and an entry that follows the boundary return is not read.  Every
other field of the record is the source field itself, so an absent one stays absent. -/
theorem projection_total_on_dereferenceable (end_ sinceValue : Int) (inc : Bool)
    (page : List Repository) (allRepos : List GithubRepository) :
    ((∀ e ∈ page, scanDerefsOk e = true) → scanPage end_ page allRepos sinceValue ≠ .nilDeref)
      ∧ ((countPage page sinceValue).isSome = true ↔ ∀ e ∈ page, countDerefsOk e = true)
      ∧ ((ownerPage (some inc) page allRepos).isSome = true
          ↔ ∀ e ∈ page, ownerDerefsOk inc e = true)
      ∧ ((ownerPage none page allRepos).isSome = true ↔ page = [])
      ∧ ((orgPage page allRepos).isSome = true ↔ ∀ e ∈ page, orgDerefsOk e = true)
      ∧ (∀ pre e rest a s, page = pre ++ e :: rest →
          scanPage end_ pre allRepos sinceValue = .next a s → scanDerefsOk e = false →
          scanPage end_ page allRepos sinceValue = .nilDeref)
      ∧ (∀ pre rest a, page = pre ++ rest →
          scanPage end_ pre allRepos sinceValue = .reached a →
          scanPage end_ page allRepos sinceValue = .reached a)
      ∧ ∀ (repo : Repository) (owner : User),
          allRecord repo owner =
            { Owner := owner.Login, ID := repo.ID, Name := repo.Name,
              FullName := repo.FullName, CloneURL := repo.CloneURL, URL := repo.HTMLURL,
              DefaultBranch := some "master", Description := repo.Description,
              Homepage := repo.Homepage }
          ∧ ownerRecord repo owner =
            { Owner := owner.Login, ID := repo.ID, Name := repo.Name,
              FullName := repo.FullName, CloneURL := repo.CloneURL, URL := repo.HTMLURL,
              DefaultBranch := repo.DefaultBranch, Description := repo.Description,
              Homepage := repo.Homepage }
          ∧ orgRecord repo owner =
            { Owner := owner.Login, ID := repo.ID, Name := repo.Name,
              FullName := repo.FullName, CloneURL := repo.SSHURL, URL := repo.HTMLURL,
              DefaultBranch := repo.DefaultBranch, Description := repo.Description,
              Homepage := repo.Homepage } := by
  refine ⟨scanPage_ne_nilDeref end_ page allRepos sinceValue, ⟨?_, countPage_isSome page sinceValue⟩,
    ⟨?_, ownerPage_isSome inc page allRepos⟩, ownerPage_nil_include page allRepos,
    ⟨?_, orgPage_isSome page allRepos⟩, ?_, ?_, fun _ _ => ⟨rfl, rfl, rfl⟩⟩
  · intro h
    by_contra hall
    rw [countPage_none_of_bad page sinceValue (exists_bad_of_not_all _ page hall)] at h
    cases h
  · intro h
    by_contra hall
    rw [ownerPage_none_of_bad inc page allRepos (exists_bad_of_not_all _ page hall)] at h
    cases h
  · intro h
    by_contra hall
    rw [orgPage_none_of_bad page allRepos (exists_bad_of_not_all _ page hall)] at h
    cases h
  · intro pre e rest a s hpage hpre hbad
    rw [hpage, scanPage_append, hpre]
    exact scanPage_bad_head end_ e rest a s hbad
  · intro pre rest a hpage hpre
    rw [hpage, scanPage_append, hpre]

/-- Witness of C10 (amended): a page whose single source entry has every optional
string field absent is projected without failure; with `end = 10`, the entry without
fork flag kills the scan behind the source 5 but is not read behind the source 50. -/
theorem projection_total_on_dereferenceable_witness :
    scanPage 10 [source 5] [] 0 ≠ .nilDeref
      ∧ (countPage [source 5] 0).isSome = true
      ∧ (ownerPage (some false) [source 5] []).isSome = true
      ∧ (orgPage [source 5] []).isSome = true
      ∧ scanPage 10 [source 5, { source 7 with Fork := none }] [] 0 = .nilDeref
      ∧ scanPage 10 [source 50, { source 7 with Fork := none }] [] 0
          = .reached [allRecord (source 50) { Login := none }]
      ∧ (allRecord (source 5) { Login := none }).Name = none :=
  ⟨(projection_total_on_dereferenceable 10 0 false [source 5] []).1 (by decide),
    (projection_total_on_dereferenceable 10 0 false [source 5] []).2.1.2 (by decide),
    (projection_total_on_dereferenceable 10 0 false [source 5] []).2.2.1.2 (by decide),
    (projection_total_on_dereferenceable 10 0 false [source 5] []).2.2.2.2.1.2 (by decide),
    (projection_total_on_dereferenceable 10 0 false
      [source 5, { source 7 with Fork := none }] []).2.2.2.2.2.1
      [source 5] { source 7 with Fork := none } [] _ _ rfl rfl (by decide),
    (projection_total_on_dereferenceable 10 0 false
      [source 50, { source 7 with Fork := none }] []).2.2.2.2.2.2.1
      [source 50] [{ source 7 with Fork := none }] _ rfl rfl,
    by decide⟩

end Wraith
